import Mathlib

/-!
Verification of the Tic-Tac-Toe board engine from `src/python/tictactoe/toe.py`.

The Python class `GameBoard` is shallowly embedded below.  Python strings are
Lean `String`s, Python `dict`s are association lists with insertion-order
semantics (assigning to an existing key updates the value in place, new keys
append at the end), and Python exceptions are modelled by the `Err` type,
with one constructor per raise site or builtin error kind.  Fallible
operations return `Except Err`.  All definitions are structural recursions so
that concrete inputs evaluate by `decide` / `rfl`.
-/

/-- Errors the embedded code can signal.  `configSize` and `configMark` are the
two `ValueError` raises in `__init__` / `_set_players` (the ConfigurationError
of the spec); `invalidPlayer` is the `ValueError` in `_marker_from_player`;
`occupied` is the `ValueError` in `place_at`; `parseError` is the `ValueError`
in `str_to_point`; `indexError` models a Python `IndexError`; `keyError`
models a `KeyError` from a dict lookup; `valueErrorInt` models the
`ValueError` raised by `int()` on a malformed numeral. -/
inductive Err where
  | configSize
  | configMark
  | invalidPlayer
  | occupied
  | parseError
  | indexError
  | keyError
  | valueErrorInt
  deriving DecidableEq, Repr

/-- Left-to-right monadic map over `Except`, mirroring the evaluation order of
a Python list comprehension: the first failing element aborts the whole map. -/
def mapE (f : α → Except Err β) : List α → Except Err (List β)
  | [] => .ok []
  | a :: l => do
    let b ← f a
    let bs ← mapE f l
    .ok (b :: bs)

/-- ASCII decimal digit test (the character class matched by `\d` in the
source regexes, restricted to ASCII as everywhere in this model). -/
def isPyDigit (c : Char) : Bool := 48 ≤ c.toNat && c.toNat ≤ 57

/-- Numeric value of a decimal digit character. -/
def digitVal (c : Char) : Nat := c.toNat - 48

/-- The ASCII whitespace characters stripped by Python `str.strip()`. -/
def isPySpace (c : Char) : Bool :=
  c.toNat = 32 || c.toNat = 9 || c.toNat = 10 || c.toNat = 11 || c.toNat = 12 || c.toNat = 13

/-- `str.strip()` on a character list: drop leading and trailing whitespace. -/
def stripPyWS (cs : List Char) : List Char :=
  ((cs.dropWhile isPySpace).reverse.dropWhile isPySpace).reverse

/-- `str.strip()` on a string. -/
def pyStripStr (s : String) : String := String.mk (stripPyWS s.toList)

/-- Digit-group scanner for Python `int()`: after the first digit, single
underscores are allowed between digits (`1_0` parses, `1__0` and `1_` do
not).  `acc` is the value accumulated so far. -/
def pduGo (acc : Nat) : List Char → Option Nat
  | [] => some acc
  | c :: rest =>
    if c = '_' then
      match rest with
      | c2 :: rest2 => if isPyDigit c2 then pduGo (10 * acc + digitVal c2) rest2 else none
      | [] => none
    else if isPyDigit c then pduGo (10 * acc + digitVal c) rest
    else none

/-- Parse a nonempty run of decimal digits (with Python underscore grouping)
to its value; `none` on any other input. -/
def parseDigitsU : List Char → Option Nat
  | [] => none
  | c :: rest => if isPyDigit c then pduGo (digitVal c) rest else none

/-- Python `int(s)` (base 10): strip whitespace, optional sign, then a digit
run; raises `ValueError` otherwise. -/
def pyIntCL (cs : List Char) : Except Err Int :=
  match stripPyWS cs with
  | [] => .error .valueErrorInt
  | c :: rest =>
    if c = '+' then
      match parseDigitsU rest with
      | some n => .ok (n : Int)
      | none => .error .valueErrorInt
    else if c = '-' then
      match parseDigitsU rest with
      | some n => .ok (-(n : Int))
      | none => .error .valueErrorInt
    else
      match parseDigitsU (c :: rest) with
      | some n => .ok (n : Int)
      | none => .error .valueErrorInt

/-- Decimal digits of a positive number, most significant first.  The first
argument is fuel bounding the recursion depth; `natChars` supplies enough. -/
def natCharsAux : Nat → Nat → List Char
  | 0, _ => []
  | _, 0 => []
  | fuel + 1, n + 1 =>
    natCharsAux fuel ((n + 1) / 10) ++ [Char.ofNat (48 + (n + 1) % 10)]

/-- Python `str(n)` for a natural number. -/
def natChars (n : Nat) : List Char := if n = 0 then ['0'] else natCharsAux n n

/-- Python `str(i)` for an integer. -/
def intChars (i : Int) : List Char :=
  if i < 0 then '-' :: natChars i.natAbs else natChars i.toNat

/-- Scanner for `re.findall(r"(\d+)", s)`: maximal runs of decimal digits.
`cur` holds the digits of the run in progress, in reverse. -/
def digitRunsGo (cur : List Char) : List Char → List (List Char)
  | [] => if cur = [] then [] else [cur.reverse]
  | c :: rest =>
    if isPyDigit c then digitRunsGo (c :: cur) rest
    else if cur = [] then digitRunsGo [] rest
    else cur.reverse :: digitRunsGo [] rest

/-- All maximal digit runs of a character list, in order. -/
def digitRuns (cs : List Char) : List (List Char) := digitRunsGo [] cs

/-- Python dict as an insertion-ordered association list. -/
abbrev Dict (α β : Type) := List (α × β)

/-- Python dict assignment `d[k] = v`: an existing key keeps its position and
gets the new value, a fresh key is appended. -/
def dictInsert [BEq α] (d : Dict α β) (k : α) (v : β) : Dict α β :=
  if d.any (fun p => p.1 == k) then d.map (fun p => if p.1 == k then (k, v) else p)
  else d ++ [(k, v)]

/-- Python dict lookup `d.get(k)`: value of the first (unique) entry with the
given key. -/
def dictGet? [BEq α] (d : Dict α β) (k : α) : Option β :=
  (d.find? (fun p => p.1 == k)).map (·.2)

/-- Python `d.keys()` in insertion order. -/
def dictKeys (d : Dict α β) : List α := d.map (·.1)

/-- `{mark: n + 1 for n, mark in enumerate(players)}` from `_set_players`. -/
def mkMarkToNum (players : List String) : Dict String Int :=
  players.enum.foldl (fun d p => dictInsert d p.2 ((p.1 : Int) + 1)) []

/-- `{n: mark for mark, n in self.mark_to_num.items()}` from `_set_players`. -/
def mkNumToMark (m2n : Dict String Int) : Dict Int String :=
  m2n.foldl (fun d p => dictInsert d p.2 p.1) []

/-- The state of a `GameBoard` instance.  `empty_board` is not modelled (it is
only used by `reset`, which no claim mentions) and `_winning_lines` is not a
field because it is a pure function of `size`, which never changes after
construction; `check_for_win` recomputes it below. -/
structure GameBoard where
  size : Nat
  mark_to_num : Dict String Int
  num_to_mark : Dict Int String
  board : List (List String)
  deriving DecidableEq, Repr

/-- The `marker_or_player: int | str` duck-typed argument, as a tagged sum. -/
inductive MarkOrNum where
  | mark (s : String)
  | num (n : Int)
  deriving DecidableEq, Repr

/-- `players = players or ['x', 'o']`: `None` and the empty list are falsy. -/
def pyOrDefault : Option (List String) → List String
  | none => ["x", "o"]
  | some [] => ["x", "o"]
  | some l => l

/-- The per-mark test of `_set_players`:
`(len(mark) > 1) or (mark.strip() == '')`. -/
def isBadMark (m : String) : Bool := m.length > 1 || pyStripStr m == ""

namespace GameBoard

/-- `GameBoard._set_players`, returning the two rebuilt registries. -/
def setPlayers (players : Option (List String)) :
    Except Err (Dict String Int × Dict Int String) :=
  let ps := pyOrDefault players
  if ps.any isBadMark then .error .configMark
  else
    let m2n := mkMarkToNum ps
    .ok (m2n, mkNumToMark m2n)

/-- `GameBoard.__init__`: check the size, register the players, allocate an
all-empty square grid. -/
def init (size : Int) (players : Option (List String)) : Except Err GameBoard :=
  if size < 2 then .error .configSize
  else do
    let pr ← setPlayers players
    .ok { size := size.toNat, mark_to_num := pr.1, num_to_mark := pr.2,
          board := List.replicate size.toNat (List.replicate size.toNat " ") }

end GameBoard

/-- Python list subscript `l[i]`: indices in `[-len, len)` are valid, negative
ones wrap by adding `len`; anything else raises `IndexError`. -/
def pyGetIdx [Inhabited α] (l : List α) (i : Int) : Except Err α :=
  let j : Int := if i < 0 then i + l.length else i
  if 0 ≤ j ∧ j < l.length then .ok (l.getD j.toNat default) else .error .indexError

/-- Python list item assignment `l[i] = v`, same index semantics as `l[i]`. -/
def pySetIdx (l : List α) (i : Int) (v : α) : Except Err (List α) :=
  let j : Int := if i < 0 then i + l.length else i
  if 0 ≤ j ∧ j < l.length then .ok (l.set j.toNat v) else .error .indexError

/-- The index a valid Python subscript `i` resolves to on a list of length
`n`. -/
def normIdx (n : Nat) (i : Int) : Nat := (if i < 0 then i + n else i).toNat

/-- Total in-bounds cell read used to state properties of well-shaped boards
(for coordinates inside `[0, size)` it agrees with Python indexing). -/
def cellAt (b : GameBoard) (r c : Nat) : String := (b.board.getD r []).getD c ""

namespace GameBoard

/-- `GameBoard.get`: `self.board[row][col]` with Python index semantics. -/
def get (b : GameBoard) (row col : Int) : Except Err String := do
  pyGetIdx (← pyGetIdx b.board row) col

/-- `GameBoard._marker_from_player` for a `str` or `int` argument (the
`None` / other-type branch raising `TypeError` is unreachable from the
call sites modelled here). -/
def markerFromPlayer (b : GameBoard) (mp : MarkOrNum) : Except Err String :=
  match mp with
  | .num n =>
    match dictGet? b.num_to_mark n with
    | none => .error .keyError
    | some marker =>
      if (dictGet? b.mark_to_num marker).isSome then .ok marker
      else .error .invalidPlayer
  | .mark marker =>
    if (dictGet? b.mark_to_num marker).isSome then .ok marker
    else .error .invalidPlayer

/-- `GameBoard.str_to_point`.  `letter_reg` collects the `[a-z]` matches,
`num_reg` the `\d+` matches; the guard only checks that the two match lists
together have exactly two elements, after which `letter_reg[0]` and
`num_reg[0]` are read (each raising `IndexError` when its list is empty). -/
def strToPoint (s : String) : Except Err (Nat × Nat) :=
  let letters := s.toList.filter (fun c => 'a' ≤ c && c ≤ 'z')
  let nums := digitRuns s.toList
  if letters.length + nums.length ≠ 2 then .error .parseError
  else
    match letters with
    | [] => .error .indexError
    | c :: _ =>
      match nums with
      | [] => .error .indexError
      | run :: _ => .ok (c.toNat - 'a'.toNat, run.foldl (fun a d => 10 * a + digitVal d) 0)

end GameBoard

/-- `','.join(pieces)` at character-list level. -/
def joinCommaCL : List (List Char) → List Char
  | [] => []
  | [x] => x
  | x :: rest => x ++ ',' :: joinCommaCL rest

/-- The cell encoding of `get_board_string`: `'0'` for an empty cell,
`str(self.mark_to_num[mark])` otherwise (a missing mark is a `KeyError`). -/
def cellCode (m2n : Dict String Int) (mark : String) : Except Err (List Char) :=
  if mark = " " then .ok ['0']
  else
    match dictGet? m2n mark with
    | some n => .ok (intChars n)
    | none => .error .keyError

/-- Scan for the next `]` of a non-greedy `X\[(.*?)\]` match: returns the
captured characters and the remainder after the `]`.  `.` does not match a
newline, so a newline before any `]` aborts the match attempt. -/
def takeCapture : List Char → Option (List Char × List Char)
  | [] => none
  | c :: rest =>
    if c = ']' then some ([], rest)
    else if c = '\n' then none
    else (takeCapture rest).map (fun pr => (c :: pr.1, pr.2))

/-- The scanning loop of `findBlocks`.  `fuel` bounds the number of characters
still to be scanned; every step consumes at least one character, so fuel equal
to the length of the list is always sufficient. -/
def findBlocksGo (tag : Char) : Nat → List Char → List (List Char)
  | 0, _ => []
  | _, [] => []
  | fuel + 1, c :: rest =>
    if c = tag ∧ rest.head? = some '[' then
      match takeCapture rest.tail with
      | some pr => pr.1 :: findBlocksGo tag fuel pr.2
      | none => findBlocksGo tag fuel rest
    else findBlocksGo tag fuel rest

/-- `re.findall(r"X\[(.*?)\]", s)` for a one-character tag `X`: all
non-overlapping captures, scanning left to right; a failed match attempt
resumes one character further on. -/
def findBlocks (tag : Char) (l : List Char) : List (List Char) :=
  findBlocksGo tag l.length l

/-- Python `s.split(',')`: never empty, `''.split(',') == ['']`. -/
def pySplitComma : List Char → List (List Char)
  | [] => [[]]
  | c :: rest =>
    if c = ',' then [] :: pySplitComma rest
    else
      match pySplitComma rest with
      | [] => [[c]]
      | r :: rs => (c :: r) :: rs

/-- The cell decoding of `load_board_string`:
`' ' if n == '0' else self.num_to_mark[int(n)]`. -/
def parseCellToken (n2m : Dict Int String) (tok : List Char) : Except Err String :=
  if tok = ['0'] then .ok " "
  else do
    let k ← pyIntCL tok
    match dictGet? n2m k with
    | some mark => .ok mark
    | none => .error .keyError

namespace GameBoard

/-- `GameBoard.get_board_string` at character level: the `P[...]` block of the
registered marks (note the trailing `=` the source writes after it), then one
`R[...]` block per row. -/
def getBoardStringChars (b : GameBoard) : Except Err (List Char) := do
  let rows ← mapE (fun row => do
      let codes ← mapE (cellCode b.mark_to_num) row
      .ok ('R' :: '[' :: (joinCommaCL codes ++ [']']))) b.board
  .ok ('P' :: '[' :: (joinCommaCL ((dictKeys b.mark_to_num).map String.toList)
        ++ ']' :: '=' :: rows.flatten))

/-- `GameBoard.get_board_string`. -/
def getBoardString (b : GameBoard) : Except Err String :=
  (getBoardStringChars b).map String.mk

/-- `GameBoard.load_board_string`: `re.findall(r"P\[(.*?)\]", s)[0]` (an
`IndexError` when there is no match), `_set_players` on its comma-split,
then one grid row per `R[...]` capture, decoded with the rebuilt registry.
The `print` of `num_to_mark` in the source is console output and not
modelled.  No validation against `size` is performed. -/
def loadBoardString (b : GameBoard) (s : String) : Except Err GameBoard :=
  match findBlocks 'P' s.toList with
  | [] => .error .indexError
  | p0 :: _ => do
    let pr ← setPlayers (some ((pySplitComma p0).map String.mk))
    let rows ← mapE (fun r => mapE (parseCellToken pr.2) (pySplitComma r))
        (findBlocks 'R' s.toList)
    .ok { b with mark_to_num := pr.1, num_to_mark := pr.2, board := rows }

end GameBoard

/-- `list(itertools.product(range(n), range(n)))`: row-major coordinates. -/
def prodList (n : Nat) : List (Nat × Nat) :=
  ((List.range n).map (fun r => (List.range n).map (fun c => (r, c)))).flatten

/-- The horizontal-line loop of `_get_winning_lines`: repeatedly slice off
`size` elements, stopping at the first short slice.  `fuel` bounds the
iteration count (the Python loop would not terminate for `size = 0`, which is
unreachable because `size ≥ 2`). -/
def chunkRowsGo (size : Nat) : Nat → List (Nat × Nat) → List (List (Nat × Nat))
  | 0, _ => []
  | fuel + 1, l =>
    if size ≠ 0 ∧ size ≤ l.length then l.take size :: chunkRowsGo size fuel (l.drop size)
    else []

/-- The horizontal lines: consecutive `size`-element slices of `prod`. -/
def chunkRows (size : Nat) (l : List (Nat × Nat)) : List (List (Nat × Nat)) :=
  chunkRowsGo size (l.length + 1) l

/-- The vertical-line inner loop of `_get_winning_lines`: collect
`prod[s], prod[s + step], ...` while the index is in range.  `fuel` bounds
the iteration count (sufficient fuel is supplied by `colWalk`). -/
def colWalkGo (l : List (Nat × Nat)) (step : Nat) : Nat → Nat → List (Nat × Nat)
  | _, 0 => []
  | s, fuel + 1 =>
    if s < l.length then l.getD s (0, 0) :: colWalkGo l step (s + step) fuel else []

/-- One vertical line, starting at flat index `s` and stepping by `step`. -/
def colWalk (l : List (Nat × Nat)) (step s : Nat) : List (Nat × Nat) :=
  colWalkGo l step s (l.length + 1)

/-- The main diagonal `[(n, n) for n in range(self.size)]`. -/
def diagRight (n : Nat) : List (Nat × Nat) := (List.range n).map (fun i => (i, i))

/-- The anti-diagonal walk: starting after `(size - 1, 0)`, step by
`(-1, +1)` until `(0, size - 1)` is the last element.  `fuel` bounds the loop
(`size` steps always suffice). -/
def diagLeftWalk (size : Nat) : Nat × Nat → Nat → List (Nat × Nat)
  | _, 0 => []
  | last, fuel + 1 =>
    if last = (0, size - 1) then []
    else
      let nxt := (last.1 - 1, last.2 + 1)
      nxt :: diagLeftWalk size nxt fuel

/-- `GameBoard._get_winning_lines`: horizontals, then verticals, then the main
diagonal, then the anti-diagonal.  The vertical loop iterates over
`enumerate(prod[0:size])`, i.e. over `range size` whenever `size ≥ 1`. -/
def winningLines (n : Nat) : List (List (Nat × Nat)) :=
  chunkRows n (prodList n)
    ++ (List.range n).map (colWalk (prodList n) n)
    ++ [diagRight n]
    ++ [(n - 1, 0) :: diagLeftWalk n (n - 1, 0) n]

namespace GameBoard

/-- The inner loop of `check_for_win` over one line: `lm` is `last_mark`
(`None` initially; `if not last_mark` also treats `''` as unset), and the
returned Bool is `is_winner` (`False` exactly when the loop broke on a
mismatch). -/
def scanLine (b : GameBoard) : Option String → List (Nat × Nat) → Option String × Bool
  | lm, [] => (lm, true)
  | lm, p :: ps =>
    if lm = none ∨ lm = some "" then scanLine b (some (cellAt b p.1 p.2)) ps
    else if lm ≠ some (cellAt b p.1 p.2) then (lm, false)
    else scanLine b lm ps

/-- The outer loop of `check_for_win`: return the first line whose scan ended
with `is_winner` and a non-empty `last_mark`. -/
def findWinLine (b : GameBoard) : List (List (Nat × Nat)) → Option (List (Nat × Nat))
  | [] => none
  | line :: rest =>
    let r := scanLine b none line
    if r.2 ∧ r.1 ≠ some " " then some line else findWinLine b rest

/-- `GameBoard.check_for_win`: `none` models the `False` sentinel. -/
def checkForWin (b : GameBoard) : Option (List (Nat × Nat)) :=
  findWinLine b (winningLines b.size)

/-- `GameBoard.place_at`: resolve the marker, fail if the target cell is
non-empty, otherwise write the marker (`self.board[row][col] = marker`
replaces the cell of the indexed row in place). -/
def placeAt (b : GameBoard) (row col : Int) (mp : MarkOrNum) : Except Err GameBoard := do
  let marker ← markerFromPlayer b mp
  let rowList ← pyGetIdx b.board row
  let existing ← pyGetIdx rowList col
  if existing ≠ " " then .error .occupied
  else do
    let newRow ← pySetIdx rowList col marker
    let newBoard ← pySetIdx b.board row newRow
    .ok { b with board := newBoard }

/-- Truthiness of the optional `marker_or_player` argument of
`find_occupied`: `None`, `0` and `''` are falsy. -/
def mpTruthy : Option MarkOrNum → Bool
  | none => false
  | some (.mark s) => s ≠ ""
  | some (.num n) => n ≠ 0

/-- `GameBoard.find_occupied`: resolve the marker only when the argument is
truthy, then collect the row-major coordinates whose cell matches the marker
(or is simply non-empty when no marker was resolved; within the filter,
`if marker` is again a truthiness test). -/
def findOccupied (b : GameBoard) (mp : Option MarkOrNum) :
    Except Err (List (Nat × Nat)) := do
  let marker : Option String ←
    match mp with
    | none => pure none
    | some m =>
      if mpTruthy (some m) then (markerFromPlayer b m).map (fun s => some s)
      else pure none
  .ok ((prodList b.size).filter (fun p =>
    match marker with
    | some mrk => if mrk ≠ "" then cellAt b p.1 p.2 == mrk else cellAt b p.1 p.2 != " "
    | none => cellAt b p.1 p.2 != " "))

end GameBoard

/-- The boards reachable by one successful construction followed by any
sequence of successful `place_at` calls; the second component records the
effective player list the construction used. -/
inductive Reached : GameBoard → List String → Prop
  | init (size : Int) (pl : Option (List String)) (b : GameBoard) :
      GameBoard.init size pl = .ok b → Reached b (pyOrDefault pl)
  | place (b b' : GameBoard) (ps : List String) (r c : Int) (mp : MarkOrNum) :
      Reached b ps → GameBoard.placeAt b r c mp = .ok b' → Reached b' ps

/-- Specification view of the horizontal lines: row `r` is
`[(r, 0), ..., (r, n - 1)]`, rows listed top to bottom. -/
def hRowsSpec (n : Nat) : List (List (Nat × Nat)) :=
  (List.range n).map (fun r => (List.range n).map (fun c => (r, c)))

/-- Specification view of the vertical lines: column `c` is
`[(0, c), ..., (n - 1, c)]`, columns listed left to right. -/
def vColsSpec (n : Nat) : List (List (Nat × Nat)) :=
  (List.range n).map (fun c => (List.range n).map (fun r => (r, c)))

/-- Specification view of the anti-diagonal, from `(n - 1, 0)` up to
`(0, n - 1)`. -/
def aDiagSpec (n : Nat) : List (Nat × Nat) := (List.range n).map (fun k => (n - 1 - k, k))

/-- Specification predicate for a complete winning line (from the claim
wording): every cell along the line holds the same non-empty mark. -/
def lineFull (b : GameBoard) : List (Nat × Nat) → Bool
  | [] => false
  | p :: ps =>
    (cellAt b p.1 p.2 != " ")
      && ps.all (fun q => cellAt b q.1 q.2 == cellAt b p.1 p.2)

/-- Specification of a serialized cell: `0` for empty, else the 1-based
registration code (position in the duplicate-free player list plus one). -/
def cellCodeSpec (ps : List String) (cell : String) : List Char :=
  if cell = " " then ['0'] else natChars (ps.indexOf cell + 1)

/-- Specification of one serialized row block `R[c1,...,cN]`. -/
def rowBlockSpec (ps : List String) (row : List String) : List Char :=
  'R' :: '[' :: (joinCommaCL (row.map (cellCodeSpec ps)) ++ [']'])

/-- Specification of the full board string: the `P[...]` block of the marks
in registration order, the `=` separator the source emits, then one row block
per grid row, top to bottom. -/
def boardChars (ps : List String) (board : List (List String)) : List Char :=
  'P' :: '[' :: (joinCommaCL (ps.map String.toList)
    ++ ']' :: '=' :: ((board.map (rowBlockSpec ps)).flatten))

/-- Specification of a serialized cell for an arbitrary registry: `0` for an
empty cell, else the decimal rendering of the code the registry stores for
the mark (the source prints `str(self.mark_to_num[mark])` verbatim). -/
def cellCodeD (d : Dict String Int) (cell : String) : List Char :=
  if cell = " " then ['0'] else intChars ((dictGet? d cell).getD 0)

/-- One serialized row block `R[c1,...,cN]` for an arbitrary registry. -/
def rowBlockD (d : Dict String Int) (row : List String) : List Char :=
  'R' :: '[' :: (joinCommaCL (row.map (cellCodeD d)) ++ [']'])

/-- The full board-string layout for an arbitrary registry `d`: the `P[...]`
block of the registry keys in insertion order (each distinct mark exactly
once), the `=` separator the source emits, then one row block per grid row,
top to bottom.  For a duplicate-free player list this coincides with
`boardChars`, where every code is the mark's 1-based registration index. -/
def boardCharsD (d : Dict String Int) (board : List (List String)) : List Char :=
  'P' :: '[' :: (joinCommaCL ((dictKeys d).map String.toList)
    ++ ']' :: '=' :: ((board.map (rowBlockD d)).flatten))

/-- Closed form of `mark_to_num` for a duplicate-free player list: the mark at
position `k` of the enumeration starting at offset `s` gets code `s + k + 1`. -/
def regList (s : Nat) : List String → Dict String Int
  | [] => []
  | m :: rest => (m, (s : Int) + 1) :: regList (s + 1) rest

/-- Closed form of `num_to_mark` for a duplicate-free player list. -/
def invList (s : Nat) : List String → Dict Int String
  | [] => []
  | m :: rest => ((s : Int) + 1, m) :: invList (s + 1) rest

/-- A freshly constructed default 2×2 board, used by witnesses. -/
def sampleBoard2 : GameBoard :=
  ⟨2, [("x", 1), ("o", 2)], [(1, "x"), (2, "o")], [[" ", " "], [" ", " "]]⟩

/-- A 2×2 board whose top row is a complete `x` line, used by witnesses. -/
def sampleBoardWin : GameBoard :=
  ⟨2, [("x", 1), ("o", 2)], [(1, "x"), (2, "o")], [["x", "x"], [" ", "o"]]⟩

/-- The board the duplicate-mark construction `GameBoard(2, ['x', 'x'])`
yields: the second registration overwrites the code of the first, so the
registry holds the single key `x` with code 2. -/
def sampleBoardDup : GameBoard :=
  ⟨2, [("x", 2)], [(2, "x")], [[" ", " "], [" ", " "]]⟩


/-! ## Basic lemmas about Python string stripping and marks -/

theorem mem_takeWhile_isPySpace {cs : List Char} {c : Char}
    (h : c ∈ cs.takeWhile isPySpace) : isPySpace c := by
  induction cs with
  | nil => simp [List.takeWhile] at h
  | cons a l ih =>
    rw [List.takeWhile_cons] at h
    by_cases ha : isPySpace a
    · simp [ha] at h
      rcases h with h | h
      · simpa [h] using ha
      · exact ih h
    · simp [ha] at h

theorem stripPyWS_eq_nil_iff (cs : List Char) :
    stripPyWS cs = [] ↔ ∀ c ∈ cs, isPySpace c := by
  unfold stripPyWS
  rw [List.reverse_eq_nil_iff, List.dropWhile_eq_nil_iff]
  constructor
  · intro h c hc
    rw [← List.takeWhile_append_dropWhile (p := isPySpace) (l := cs)] at hc
    rcases List.mem_append.1 hc with h1 | h2
    · exact mem_takeWhile_isPySpace h1
    · exact h c (List.mem_reverse.2 h2)
  · intro h c hc
    exact h c ((cs.dropWhile_sublist isPySpace).subset (List.mem_reverse.1 hc))

theorem isBadMark_iff (m : String) :
    isBadMark m = true ↔ 1 < m.length ∨ ∀ c ∈ m.toList, isPySpace c := by
  unfold isBadMark pyStripStr
  rw [Bool.or_eq_true, decide_eq_true_iff, beq_iff_eq]
  constructor
  · rintro (h | h)
    · exact Or.inl h
    · refine Or.inr ((stripPyWS_eq_nil_iff m.toList).1 ?_)
      have : stripPyWS m.toList = ("" : String).data := congrArg String.data h
      simpa using this
  · rintro (h | h)
    · exact Or.inl h
    · exact Or.inr (congrArg String.mk ((stripPyWS_eq_nil_iff m.toList).2 h))

/-! ## Claim C4: coordinate parsing -/

/-- Claim C4: the four well-formed coordinate strings all parse to row 0,
column 3; `"33"` fails with the ParseError of the claim; but `"ab"` slips
past the two-token guard (two letters, zero numbers) and fails with an
`IndexError` from `num_reg[0]` instead of the claimed ParseError. -/
theorem strToPoint_examples :
    GameBoard.strToPoint "a3" = .ok (0, 3) ∧
    GameBoard.strToPoint "3a" = .ok (0, 3) ∧
    GameBoard.strToPoint "a 3" = .ok (0, 3) ∧
    GameBoard.strToPoint "3, a" = .ok (0, 3) ∧
    GameBoard.strToPoint "33" = .error .parseError ∧
    GameBoard.strToPoint "ab" = .error .indexError :=
  ⟨rfl, rfl, rfl, rfl, rfl, rfl⟩

/-! ## Claim C5: construction -/

/-- Claim C5, counterexample: construction does NOT reject duplicate marks
(the dict comprehension silently overwrites, leaving `x` with code 2), while
a two-character mark, which the claim does not list as a failure, is
rejected. -/
theorem init_duplicate_marks_accepted :
    GameBoard.init 3 (some ["x", "x"])
        = .ok ⟨3, [("x", 2)], [(2, "x")], List.replicate 3 (List.replicate 3 " ")⟩ ∧
    GameBoard.init 2 (some ["ab", "o"]) = .error .configMark :=
  ⟨rfl, rfl⟩

/-- Claim C5 (amended): construction fails with the size configuration error
exactly when `size < 2`; otherwise it fails with the mark configuration error
exactly when some effective mark is longer than one character or consists
only of whitespace (duplicate marks are NOT rejected); otherwise it succeeds
with an all-empty `size × size` grid and the registries built from the
effective player list. -/
theorem init_characterization (size : Int) (players : Option (List String)) :
    (size < 2 → GameBoard.init size players = .error .configSize) ∧
    (¬size < 2 → (∃ m ∈ pyOrDefault players, 1 < m.length ∨ ∀ c ∈ m.toList, isPySpace c) →
      GameBoard.init size players = .error .configMark) ∧
    (¬size < 2 → (∀ m ∈ pyOrDefault players, m.length ≤ 1 ∧ ¬∀ c ∈ m.toList, isPySpace c) →
      GameBoard.init size players =
        .ok { size := size.toNat,
              mark_to_num := mkMarkToNum (pyOrDefault players),
              num_to_mark := mkNumToMark (mkMarkToNum (pyOrDefault players)),
              board := List.replicate size.toNat (List.replicate size.toNat " ") }) := by
  refine ⟨fun h => ?_, fun h hbad => ?_, fun h hgood => ?_⟩
  · simp [GameBoard.init, h]
  · have hany : (pyOrDefault players).any isBadMark = true := by
      rcases hbad with ⟨m, hm, hcond⟩
      exact List.any_eq_true.2 ⟨m, hm, (isBadMark_iff m).2 hcond⟩
    simp [GameBoard.init, h, GameBoard.setPlayers, hany, Bind.bind, Except.bind]
  · have hany : (pyOrDefault players).any isBadMark = false := by
      rw [List.any_eq_false]
      intro m hm
      rcases hgood m hm with ⟨h1, h2⟩
      rw [Bool.not_eq_true, ← Bool.not_eq_true] at *
      intro hc
      rcases (isBadMark_iff m).1 hc with hlen | hsp
      · omega
      · exact h2 hsp
    simp [GameBoard.init, h, GameBoard.setPlayers, hany, Bind.bind, Except.bind]

/-- Witness for `init_characterization` at `size = 3` with the default
players. -/
theorem init_characterization_witness :
    GameBoard.init 3 none =
      .ok { size := (3 : Int).toNat,
            mark_to_num := mkMarkToNum (pyOrDefault none),
            num_to_mark := mkNumToMark (mkMarkToNum (pyOrDefault none)),
            board := List.replicate (3 : Int).toNat (List.replicate (3 : Int).toNat " ") } :=
  (init_characterization 3 none).2.2 (by decide) (by decide)

/-! ## Claim C2: board-string layout, counterexample -/

/-- Claim C2, counterexample: the serialized string of a fresh default 2×2
board carries a `=` between the `P[...]` block and the first `R[...]` block,
so it is not the claimed juxtaposition `P[x,o]` immediately followed by the
row blocks. -/
theorem getBoardString_has_equals :
    (GameBoard.init 2 none >>= GameBoard.getBoardString) = .ok "P[x,o]=R[0,0]R[0,0]" ∧
    "P[x,o]=R[0,0]R[0,0]" ≠ "P[x,o]" ++ "R[0,0]R[0,0]" :=
  ⟨rfl, by decide⟩

/-! ## Claim C7: load validation, counterexample -/

/-- Claim C7, counterexample: loading a string whose single row has one cell
onto a freshly constructed 2×2 board raises nothing and silently installs the
1×1 grid `[[x]]`, so no FormatError protects against a row-count or
cell-count mismatch. -/
theorem loadBoardString_no_size_check :
    (GameBoard.init 2 none >>= fun b =>
        (GameBoard.loadBoardString b "P[x,o]=R[1]").map GameBoard.board)
      = .ok [["x"]] :=
  rfl

/-! ## Claim C9: cell access, counterexample -/

/-- Claim C9, counterexample: on a fresh 2×2 board, `get (-1) 0` has a row
coordinate outside `[0, 2)` yet returns the cell value of the wrapped-around
row 1 instead of failing. -/
theorem get_negative_index_wraps :
    (GameBoard.init 2 none >>= fun b => GameBoard.get b (-1) 0) = .ok " " :=
  rfl

/-! ## Python list indexing, characterized -/

theorem pyGetIdx_eq [Inhabited α] (l : List α) (i : Int) :
    pyGetIdx l i =
      if -(l.length : Int) ≤ i ∧ i < l.length
      then .ok (l.getD (normIdx l.length i) default)
      else .error .indexError := by
  unfold pyGetIdx normIdx
  by_cases hneg : i < 0 <;> simp only [hneg, if_true, if_false] <;>
    split_ifs <;> first | rfl | omega

theorem pySetIdx_eq (l : List α) (i : Int) (v : α) :
    pySetIdx l i v =
      if -(l.length : Int) ≤ i ∧ i < l.length
      then .ok (l.set (normIdx l.length i) v)
      else .error .indexError := by
  unfold pySetIdx normIdx
  by_cases hneg : i < 0 <;> simp only [hneg, if_true, if_false] <;>
    split_ifs <;> first | rfl | omega

theorem normIdx_ofNat (n : Nat) (i : Nat) : normIdx n i = i := by
  unfold normIdx
  split <;> omega

/-! ## Claim C9 (amended): full characterization of `get` -/

/-- Claim C9 (amended): on a well-shaped board, `get` fails with IndexError
exactly when a coordinate lies outside `[-n, n)`; coordinates in `[-n, 0)`
wrap around Python-style, and coordinates in `[0, n)` read the cell
directly. -/
theorem get_characterization (b : GameBoard) (h1 : b.board.length = b.size)
    (h2 : ∀ r ∈ b.board, r.length = b.size) (row col : Int) :
    GameBoard.get b row col =
      if (-(b.size : Int) ≤ row ∧ row < b.size) ∧ (-(b.size : Int) ≤ col ∧ col < b.size)
      then .ok (cellAt b (normIdx b.size row) (normIdx b.size col))
      else .error .indexError := by
  show (pyGetIdx b.board row >>= fun rl => pyGetIdx rl col) = _
  rw [pyGetIdx_eq, h1]
  by_cases hr : -(b.size : Int) ≤ row ∧ row < (b.size : Int)
  · rw [if_pos hr]
    have hmem : b.board.getD (normIdx b.size row) default ∈ b.board := by
      have hlt : normIdx b.size row < b.board.length := by
        unfold normIdx
        rw [h1]
        split <;> omega
      rw [List.getD_eq_getElem _ _ hlt]
      exact List.getElem_mem hlt
    have hlen : (b.board.getD (normIdx b.size row) default).length = b.size :=
      h2 _ hmem
    show pyGetIdx (b.board.getD (normIdx b.size row) default) col = _
    rw [pyGetIdx_eq, hlen]
    by_cases hc : -(b.size : Int) ≤ col ∧ col < (b.size : Int)
    · rw [if_pos hc, if_pos ⟨hr, hc⟩]
      rfl
    · rw [if_neg hc, if_neg (fun h => hc h.2)]
  · rw [if_neg hr]
    rw [if_neg (fun h => hr h.1)]
    rfl

/-- Witness for `get_characterization` on a fresh 2×2 board at `(0, 1)`. -/
theorem get_characterization_witness :
    GameBoard.get sampleBoard2 0 1 =
      if (-(sampleBoard2.size : Int) ≤ 0 ∧ (0 : Int) < sampleBoard2.size)
          ∧ (-(sampleBoard2.size : Int) ≤ 1 ∧ (1 : Int) < sampleBoard2.size)
      then .ok (cellAt sampleBoard2 (normIdx sampleBoard2.size 0) (normIdx sampleBoard2.size 1))
      else .error .indexError :=
  get_characterization sampleBoard2 (by decide) (by decide) 0 1

/-! ## Claim C6: placement -/

/-- Claim C6: with an in-range coordinate and a resolvable marker, placing on
an occupied cell signals the occupied-cell error (leaving the board term
untouched, as the model returns no new state), and placing on an empty cell
writes the resolved mark at exactly that coordinate. -/
theorem placeAt_characterization (b : GameBoard) (h1 : b.board.length = b.size)
    (h2 : ∀ r ∈ b.board, r.length = b.size) (row col : Nat) (hr : row < b.size)
    (hc : col < b.size) (mp : MarkOrNum) (m : String)
    (hm : GameBoard.markerFromPlayer b mp = .ok m) :
    (cellAt b row col ≠ " " → GameBoard.placeAt b row col mp = .error .occupied) ∧
    (cellAt b row col = " " → GameBoard.placeAt b row col mp =
      .ok { b with board := b.board.set row ((b.board.getD row []).set col m) }) := by
  have key : GameBoard.placeAt b row col mp =
      (pyGetIdx b.board row >>= fun rowList =>
        pyGetIdx rowList col >>= fun existing =>
          if existing ≠ " " then .error .occupied
          else pySetIdx rowList col m >>= fun newRow =>
            pySetIdx b.board row newRow >>= fun newBoard =>
              .ok { b with board := newBoard }) := by
    unfold GameBoard.placeAt
    rw [hm]
    rfl
  rw [key, pyGetIdx_eq, h1, if_pos (by constructor <;> omega), normIdx_ofNat]
  have hmem : b.board.getD row default ∈ b.board := by
    have hlt : row < b.board.length := by omega
    rw [List.getD_eq_getElem _ _ hlt]
    exact List.getElem_mem hlt
  have hlen : (b.board.getD row default).length = b.size := h2 _ hmem
  simp only [Bind.bind, Except.bind]
  rw [pyGetIdx_eq, hlen, if_pos (by constructor <;> omega), normIdx_ofNat]
  have hcell : (b.board.getD row default).getD col default = cellAt b row col := rfl
  simp only [Bind.bind, Except.bind, hcell]
  constructor
  · intro hocc
    rw [if_pos hocc]
  · intro hemp
    rw [if_neg (by simp [hemp])]
    rw [pySetIdx_eq, hlen, if_pos (by constructor <;> omega), normIdx_ofNat]
    simp only [Bind.bind, Except.bind]
    rw [pySetIdx_eq, h1, if_pos (by constructor <;> omega), normIdx_ofNat]
    rfl

/-- Witness for `placeAt_characterization` on a fresh 2×2 board at `(0, 0)`
with mark `x`. -/
theorem placeAt_characterization_witness :
    (cellAt sampleBoard2 0 0 ≠ " " →
      GameBoard.placeAt sampleBoard2 0 0 (.mark "x") = .error .occupied) ∧
    (cellAt sampleBoard2 0 0 = " " →
      GameBoard.placeAt sampleBoard2 0 0 (.mark "x") =
        .ok { sampleBoard2 with
              board := sampleBoard2.board.set 0 ((sampleBoard2.board.getD 0 []).set 0 "x") }) :=
  placeAt_characterization sampleBoard2 (by decide) (by decide) 0 0 (by decide) (by decide)
    (.mark "x") "x" (by rfl)

/-! ## Dict invariants -/

theorem mem_dictInsert [BEq α] {d : Dict α β} {k : α} {v : β} {q : α × β}
    (hq : q ∈ dictInsert d k v) : q ∈ d ∨ q = (k, v) := by
  unfold dictInsert at hq
  split at hq
  · rcases List.mem_map.1 hq with ⟨p, hp, hpe⟩
    by_cases hpk : p.1 == k
    · rw [if_pos hpk] at hpe
      right
      exact hpe.symm
    · rw [if_neg hpk] at hpe
      left
      rwa [← hpe]
  · rcases List.mem_append.1 hq with h | h
    · left; exact h
    · right; simpa using h

theorem foldl_dictInsert_invariant [BEq α] (P : α × β → Prop) (f : γ → α × β) :
    ∀ (l : List γ) (d : Dict α β), (∀ q ∈ d, P q) → (∀ x ∈ l, P (f x)) →
      ∀ q ∈ l.foldl (fun d x => dictInsert d (f x).1 (f x).2) d, P q := by
  intro l
  induction l with
  | nil => intro d hd _ q hq; exact hd q hq
  | cons x xs ih =>
    intro d hd hl q hq
    simp only [List.foldl_cons] at hq
    refine ih _ (fun r hr => ?_) (fun y hy => hl y (List.mem_cons_of_mem _ hy)) q hq
    rcases mem_dictInsert hr with h | h
    · exact hd r h
    · rw [h]; exact hl x (List.mem_cons_self _ _)

theorem mkMarkToNum_value_pos (ps : List String) :
    ∀ q ∈ mkMarkToNum ps, 1 ≤ q.2 := by
  intro q hq
  unfold mkMarkToNum at hq
  refine foldl_dictInsert_invariant (fun q => 1 ≤ q.2)
    (fun p => (p.2, (p.1 : Int) + 1)) ps.enum [] (by simp) (fun x _ => ?_) q hq
  show 1 ≤ (x.1 : Int) + 1
  omega

theorem mkNumToMark_key_pos (ps : List String) :
    ∀ q ∈ mkNumToMark (mkMarkToNum ps), 1 ≤ q.1 := by
  intro q hq
  unfold mkNumToMark at hq
  exact foldl_dictInsert_invariant (fun q => 1 ≤ q.1) (fun p => (p.2, p.1))
    (mkMarkToNum ps) [] (by simp) (fun x hx => mkMarkToNum_value_pos ps x hx) q hq

theorem dictGet?_zero_none (ps : List String) :
    dictGet? (mkNumToMark (mkMarkToNum ps)) (0 : Int) = none := by
  have h : (mkNumToMark (mkMarkToNum ps)).find? (fun p => p.1 == 0) = none :=
    List.find?_eq_none.2 (fun q hq => by
      have h1 := mkNumToMark_key_pos ps q hq
      simp only [beq_iff_eq]
      omega)
  unfold dictGet?
  rw [h]
  rfl

/-! ## Claim C10: player index 0 is treated as absent -/

/-- Claim C10: on a board whose registry was rebuilt from any player list,
`find_occupied 0` is treated exactly like the no-argument call: the integer 0
is falsy, so marker resolution is skipped, the full row-major list of
occupied cells is returned, and no invalid-player error is raised even
though no mark carries the code 0. -/
theorem findOccupied_player_zero (b : GameBoard) (ps : List String)
    (h : b.num_to_mark = mkNumToMark (mkMarkToNum ps)) :
    GameBoard.findOccupied b (some (.num 0)) =
        .ok ((prodList b.size).filter (fun p => cellAt b p.1 p.2 != " ")) ∧
    GameBoard.findOccupied b (some (.num 0)) = GameBoard.findOccupied b none ∧
    dictGet? b.num_to_mark 0 = none := by
  refine ⟨rfl, rfl, ?_⟩
  rw [h]
  exact dictGet?_zero_none ps

/-- Witness for `findOccupied_player_zero` on a 2×2 board with one complete
row. -/
theorem findOccupied_player_zero_witness :
    GameBoard.findOccupied sampleBoardWin (some (.num 0)) =
        .ok ((prodList sampleBoardWin.size).filter
          (fun p => cellAt sampleBoardWin p.1 p.2 != " ")) ∧
    GameBoard.findOccupied sampleBoardWin (some (.num 0)) =
        GameBoard.findOccupied sampleBoardWin none ∧
    dictGet? sampleBoardWin.num_to_mark 0 = none :=
  findOccupied_player_zero sampleBoardWin ["x", "o"] (by rfl)

/-! ## Winning-line enumeration -/

theorem chunkRowsGo_flatten {n : Nat} (hn : 0 < n) :
    ∀ (bs : List (List (Nat × Nat))) (fuel : Nat), (∀ b ∈ bs, b.length = n) →
      bs.length < fuel → chunkRowsGo n fuel bs.flatten = bs := by
  intro bs
  induction bs with
  | nil =>
    intro fuel _ hfuel
    match fuel, hfuel with
    | f + 1, _ =>
      show chunkRowsGo n (f + 1) [] = []
      unfold chunkRowsGo
      rw [if_neg (by simp only [List.length_nil]; omega)]
  | cons b bs ih =>
    intro fuel hb hfuel
    simp only [List.length_cons] at hfuel
    match fuel, hfuel with
    | f + 1, hfuel =>
      have hbl : b.length = n := hb b (List.mem_cons_self _ _)
      show chunkRowsGo n (f + 1) (b ++ bs.flatten) = b :: bs
      unfold chunkRowsGo
      rw [if_pos (by refine ⟨by omega, ?_⟩; simp only [List.length_append]; omega)]
      rw [List.take_left' hbl, List.drop_left' hbl]
      rw [ih f (fun x hx => hb x (List.mem_cons_of_mem _ hx)) (by omega)]

theorem length_le_length_flatten {n : Nat} (hn : 0 < n)
    (bs : List (List (Nat × Nat))) (hb : ∀ b ∈ bs, b.length = n) :
    bs.length ≤ bs.flatten.length := by
  induction bs with
  | nil => simp
  | cons b l ih =>
    have hbl : b.length = n := hb b (List.mem_cons_self _ _)
    have := ih (fun x hx => hb x (List.mem_cons_of_mem _ hx))
    simp only [List.flatten_cons, List.length_append, List.length_cons]
    omega

theorem chunkRows_flatten {n : Nat} (hn : 0 < n)
    (bs : List (List (Nat × Nat))) (hb : ∀ b ∈ bs, b.length = n) :
    chunkRows n bs.flatten = bs := by
  unfold chunkRows
  exact chunkRowsGo_flatten hn bs _ hb
    (Nat.lt_succ_of_le (length_le_length_flatten hn bs hb))

theorem colWalkGo_append (b rest : List (Nat × Nat)) (step : Nat) :
    ∀ (fuel s : Nat),
      colWalkGo (b ++ rest) step (b.length + s) fuel = colWalkGo rest step s fuel := by
  intro fuel
  induction fuel with
  | zero => intro s; rfl
  | succ f ih =>
    intro s
    show colWalkGo (b ++ rest) step (b.length + s) (f + 1) = colWalkGo rest step s (f + 1)
    unfold colWalkGo
    by_cases hs : s < rest.length
    · rw [if_pos (by simp only [List.length_append]; omega), if_pos hs]
      rw [List.getD_append_right b rest (0, 0) (b.length + s) (by omega)]
      have hss : b.length + s - b.length = s := by omega
      rw [hss]
      have hstep : b.length + s + step = b.length + (s + step) := by omega
      rw [hstep, ih]
    · rw [if_neg (by simp only [List.length_append]; omega), if_neg hs]

theorem colWalkGo_flatten {n : Nat} (hn : 0 < n) :
    ∀ (bs : List (List (Nat × Nat))) (fuel c : Nat), (∀ b ∈ bs, b.length = n) →
      c < n → bs.length < fuel →
      colWalkGo bs.flatten n c fuel = bs.map (fun b => b.getD c (0, 0)) := by
  intro bs
  induction bs with
  | nil =>
    intro fuel c _ _ hfuel
    match fuel, hfuel with
    | f + 1, _ =>
      show colWalkGo [] n c (f + 1) = []
      unfold colWalkGo
      rw [if_neg (by simp)]
  | cons b bs ih =>
    intro fuel c hb hc hfuel
    simp only [List.length_cons] at hfuel
    match fuel, hfuel with
    | f + 1, hfuel =>
      have hbl : b.length = n := hb b (List.mem_cons_self _ _)
      show colWalkGo (b ++ bs.flatten) n c (f + 1) = _
      unfold colWalkGo
      rw [if_pos (by simp only [List.length_append]; omega)]
      rw [List.getD_append b bs.flatten (0, 0) c (by omega)]
      have hcn : c + n = b.length + c := by omega
      rw [hcn, colWalkGo_append]
      rw [ih f c (fun x hx => hb x (List.mem_cons_of_mem _ hx)) hc (by omega)]
      rfl

theorem colWalk_flatten {n : Nat} (hn : 0 < n)
    (bs : List (List (Nat × Nat))) (hb : ∀ b ∈ bs, b.length = n)
    (c : Nat) (hc : c < n) :
    colWalk bs.flatten n c = bs.map (fun b => b.getD c (0, 0)) := by
  unfold colWalk
  exact colWalkGo_flatten hn bs _ c hb hc
    (Nat.lt_succ_of_le (length_le_length_flatten hn bs hb))

theorem diagLeftWalk_spec (n : Nat) (hn : 1 ≤ n) :
    ∀ (fuel k : Nat), k < n → n - 1 - k ≤ fuel →
      diagLeftWalk n (n - 1 - k, k) fuel =
        (List.range' (k + 1) (n - 1 - k)).map (fun j => (n - 1 - j, j)) := by
  intro fuel
  induction fuel with
  | zero =>
    intro k hk hf
    have h0 : n - 1 - k = 0 := by omega
    rw [h0]
    rfl
  | succ f ih =>
    intro k hk hf
    by_cases hk1 : k = n - 1
    · have h0 : n - 1 - k = 0 := by omega
      rw [h0]
      show diagLeftWalk n (0, k) (f + 1) = []
      unfold diagLeftWalk
      rw [if_pos (by rw [hk1])]
    · have hlt : k < n - 1 := by omega
      unfold diagLeftWalk
      rw [if_neg (by intro hpair; exact hk1 (congrArg Prod.snd hpair))]
      show (n - 1 - k - 1, k + 1) :: diagLeftWalk n (n - 1 - k - 1, k + 1) f = _
      rw [show n - 1 - k - 1 = n - 1 - (k + 1) from by omega]
      rw [ih (k + 1) (by omega) (by omega)]
      rw [show n - 1 - k = (n - 1 - (k + 1)) + 1 from by omega, List.range'_succ]
      rfl

theorem winningLines_spec (n : Nat) (hn : 1 ≤ n) :
    winningLines n = hRowsSpec n ++ vColsSpec n ++ [diagRight n] ++ [aDiagSpec n] := by
  have hblocks : ∀ b ∈ hRowsSpec n, b.length = n := by
    intro b hb
    rcases List.mem_map.1 hb with ⟨r, _, rfl⟩
    simp
  have hflat : prodList n = (hRowsSpec n).flatten := rfl
  have h1 : chunkRows n (prodList n) = hRowsSpec n := by
    rw [hflat, chunkRows_flatten (by omega) _ hblocks]
  have h2 : (List.range n).map (colWalk (prodList n) n) = vColsSpec n := by
    unfold vColsSpec
    refine List.map_congr_left ?_
    intro c hc
    have hc2 : c < n := List.mem_range.1 hc
    rw [hflat, colWalk_flatten (by omega) _ hblocks c hc2]
    unfold hRowsSpec
    rw [List.map_map]
    refine List.map_congr_left ?_
    intro r hr
    show ((List.range n).map (fun c2 => (r, c2))).getD c (0, 0) = (r, c)
    rw [List.getD_eq_getElem _ _ (by simp [hc2])]
    simp [hc2]
  have h3 : (n - 1, 0) :: diagLeftWalk n (n - 1, 0) n = aDiagSpec n := by
    have hw := diagLeftWalk_spec n hn n 0 (by omega) (by omega)
    unfold aDiagSpec
    have hr : List.range n = 0 :: List.range' 1 (n - 1) := by
      rw [List.range_eq_range', show n = (n - 1) + 1 from by omega]
      rfl
    rw [hr]
    simp only [List.map_cons]
    exact List.cons_eq_cons.2 ⟨rfl, hw⟩
  show chunkRows n (prodList n) ++ (List.range n).map (colWalk (prodList n) n)
      ++ [diagRight n] ++ [(n - 1, 0) :: diagLeftWalk n (n - 1, 0) n] = _
  rw [h1, h2, h3]

/-! ## Claim C8: shape of the winning-line set -/

/-- Claim C8: for every size at least 2, the precomputed winning-line list is
exactly the rows top-to-bottom, the columns left-to-right, the main diagonal
and the anti-diagonal, giving `2 * size + 2` lines of length `size` each. -/
theorem winningLines_characterization (n : Nat) (hn : 2 ≤ n) :
    winningLines n = hRowsSpec n ++ vColsSpec n ++ [diagRight n] ++ [aDiagSpec n] ∧
    (winningLines n).length = 2 * n + 2 ∧
    ∀ line ∈ winningLines n, line.length = n := by
  have hs := winningLines_spec n (by omega)
  refine ⟨hs, ?_, ?_⟩
  · rw [hs]
    simp only [hRowsSpec, vColsSpec, List.length_append, List.length_map,
      List.length_range, List.length_cons, List.length_nil]
    omega
  · intro line hline
    rw [hs] at hline
    simp only [List.mem_append, List.mem_singleton] at hline
    rcases hline with ((h | h) | h) | h
    · rcases List.mem_map.1 h with ⟨r, _, rfl⟩
      simp
    · rcases List.mem_map.1 h with ⟨c, _, rfl⟩
      simp
    · rw [h]; simp [diagRight]
    · rw [h]; simp [aDiagSpec]

/-- Witness for `winningLines_characterization` at size 3. -/
theorem winningLines_characterization_witness :
    winningLines 3 = hRowsSpec 3 ++ vColsSpec 3 ++ [diagRight 3] ++ [aDiagSpec 3] ∧
    (winningLines 3).length = 2 * 3 + 2 ∧
    ∀ line ∈ winningLines 3, line.length = 3 :=
  winningLines_characterization 3 (by decide)

/-! ## Claim C3: win detection -/

theorem winningLines_line_length (n : Nat) (hn : 1 ≤ n) :
    ∀ line ∈ winningLines n, line.length = n := by
  intro line hline
  rw [winningLines_spec n hn] at hline
  simp only [List.mem_append, List.mem_singleton] at hline
  rcases hline with ((h | h) | h) | h
  · rcases List.mem_map.1 h with ⟨r, _, rfl⟩
    simp
  · rcases List.mem_map.1 h with ⟨c, _, rfl⟩
    simp
  · rw [h]; simp [diagRight]
  · rw [h]; simp [aDiagSpec]

theorem winningLines_coords (n : Nat) (hn : 1 ≤ n) :
    ∀ line ∈ winningLines n, ∀ p ∈ line, p.1 < n ∧ p.2 < n := by
  intro line hline p hp
  rw [winningLines_spec n hn] at hline
  simp only [List.mem_append, List.mem_singleton] at hline
  rcases hline with ((h | h) | h) | h
  · rcases List.mem_map.1 h with ⟨r, hr, rfl⟩
    rcases List.mem_map.1 hp with ⟨c, hc, rfl⟩
    exact ⟨List.mem_range.1 hr, List.mem_range.1 hc⟩
  · rcases List.mem_map.1 h with ⟨c, hc, rfl⟩
    rcases List.mem_map.1 hp with ⟨r, hr, rfl⟩
    exact ⟨List.mem_range.1 hr, List.mem_range.1 hc⟩
  · rw [h] at hp
    rcases List.mem_map.1 hp with ⟨i, hi, rfl⟩
    exact ⟨List.mem_range.1 hi, List.mem_range.1 hi⟩
  · rw [h] at hp
    rcases List.mem_map.1 hp with ⟨k, hk, rfl⟩
    have hk2 := List.mem_range.1 hk
    constructor
    · show n - 1 - k < n
      omega
    · exact hk2

theorem cellAt_ne_empty (b : GameBoard) (h1 : b.board.length = b.size)
    (h2 : ∀ r ∈ b.board, r.length = b.size)
    (h3 : ∀ r ∈ b.board, ∀ x ∈ r, x ≠ "") (r c : Nat) (hr : r < b.size)
    (hc : c < b.size) : cellAt b r c ≠ "" := by
  unfold cellAt
  have hrlt : r < b.board.length := by omega
  rw [List.getD_eq_getElem _ _ hrlt]
  have hrow : b.board[r] ∈ b.board := List.getElem_mem hrlt
  have hclt : c < b.board[r].length := by rw [h2 _ hrow]; omega
  rw [List.getD_eq_getElem _ _ hclt]
  exact h3 _ hrow _ (List.getElem_mem hclt)

theorem scanLine_some (b : GameBoard) (m : String) (hm : m ≠ "") :
    ∀ ps : List (Nat × Nat),
      GameBoard.scanLine b (some m) ps =
        (some m, ps.all (fun q => cellAt b q.1 q.2 == m)) := by
  intro ps
  induction ps with
  | nil => rfl
  | cons q qs ih =>
    show GameBoard.scanLine b (some m) (q :: qs) = _
    unfold GameBoard.scanLine
    rw [if_neg (by simp [hm])]
    by_cases hq : cellAt b q.1 q.2 = m
    · rw [if_neg (by simp [hq]), ih]
      simp [hq]
    · rw [if_pos (by simp; exact fun h => hq h.symm)]
      simp [List.all_cons, hq]

theorem scanLine_start (b : GameBoard) (p : Nat × Nat) (ps : List (Nat × Nat))
    (hp : cellAt b p.1 p.2 ≠ "") :
    GameBoard.scanLine b none (p :: ps) =
      (some (cellAt b p.1 p.2),
        ps.all (fun q => cellAt b q.1 q.2 == cellAt b p.1 p.2)) := by
  show GameBoard.scanLine b none (p :: ps) = _
  unfold GameBoard.scanLine
  rw [if_pos (Or.inl rfl)]
  exact scanLine_some b _ hp ps

theorem scanLine_condition (b : GameBoard) (p : Nat × Nat) (ps : List (Nat × Nat))
    (hp : cellAt b p.1 p.2 ≠ "") :
    (((GameBoard.scanLine b none (p :: ps)).2 = true ∧
        (GameBoard.scanLine b none (p :: ps)).1 ≠ some " ")
      ↔ lineFull b (p :: ps) = true) := by
  rw [scanLine_start b p ps hp]
  show (ps.all (fun q => cellAt b q.1 q.2 == cellAt b p.1 p.2) = true ∧
      some (cellAt b p.1 p.2) ≠ some " ") ↔ _
  unfold lineFull
  rw [Bool.and_eq_true]
  constructor
  · rintro ⟨hall, hms⟩
    refine ⟨?_, hall⟩
    simp only [bne_iff_ne, ne_eq]
    intro h
    exact hms (by rw [h])
  · rintro ⟨hne, hall⟩
    refine ⟨hall, ?_⟩
    simp only [bne_iff_ne, ne_eq] at hne
    intro h
    exact hne (Option.some.injEq _ _ ▸ h)

theorem findWinLine_eq_find? (b : GameBoard) :
    ∀ lines : List (List (Nat × Nat)),
      (∀ line ∈ lines, line ≠ [] ∧ ∀ p ∈ line, cellAt b p.1 p.2 ≠ "") →
      GameBoard.findWinLine b lines = lines.find? (lineFull b) := by
  intro lines
  induction lines with
  | nil => intro _; rfl
  | cons line rest ih =>
    intro h
    rcases h line (List.mem_cons_self _ _) with ⟨hne, hcells⟩
    match line, hne with
    | p :: ps, _ =>
      have hcond := scanLine_condition b p ps (hcells p (List.mem_cons_self _ _))
      show GameBoard.findWinLine b ((p :: ps) :: rest) = _
      unfold GameBoard.findWinLine
      by_cases hf : lineFull b (p :: ps) = true
      · rw [if_pos (hcond.2 hf), List.find?_cons_of_pos _ hf]
      · rw [if_neg (fun hc => hf (hcond.1 hc)),
          List.find?_cons_of_neg _ (by simp [hf]),
          ih (fun l hl => h l (List.mem_cons_of_mem _ hl))]

/-- Claim C3: on a well-shaped board whose cells are never the empty string
(true of every reachable or loaded board), `check_for_win` returns exactly
the first line of the fixed enumeration whose cells all hold the same
non-empty mark, and the no-winner sentinel when no line is complete — both
directions packaged as equality with `find?` over the winning-line list,
whose enumeration order is restated by the second conjunct. -/
theorem checkForWin_characterization (b : GameBoard) (h1 : b.board.length = b.size)
    (h2 : ∀ r ∈ b.board, r.length = b.size) (h3 : ∀ r ∈ b.board, ∀ x ∈ r, x ≠ "")
    (hn : 2 ≤ b.size) :
    GameBoard.checkForWin b = (winningLines b.size).find? (lineFull b) ∧
    winningLines b.size =
      hRowsSpec b.size ++ vColsSpec b.size ++ [diagRight b.size] ++ [aDiagSpec b.size] := by
  refine ⟨?_, winningLines_spec b.size (by omega)⟩
  unfold GameBoard.checkForWin
  apply findWinLine_eq_find?
  intro line hline
  constructor
  · have := winningLines_line_length b.size (by omega) line hline
    intro hcon
    rw [hcon] at this
    simp at this
    omega
  · intro p hp
    have hb := winningLines_coords b.size (by omega) line hline p hp
    exact cellAt_ne_empty b h1 h2 h3 p.1 p.2 hb.1 hb.2

/-- Witness for `checkForWin_characterization` on a 2×2 board whose top row
is a complete `x` line. -/
theorem checkForWin_characterization_witness :
    GameBoard.checkForWin sampleBoardWin =
        (winningLines sampleBoardWin.size).find? (lineFull sampleBoardWin) ∧
    winningLines sampleBoardWin.size =
      hRowsSpec sampleBoardWin.size ++ vColsSpec sampleBoardWin.size
        ++ [diagRight sampleBoardWin.size] ++ [aDiagSpec sampleBoardWin.size] :=
  checkForWin_characterization sampleBoardWin (by decide) (by decide) (by decide) (by decide)

/-! ## Registry closed forms for duplicate-free player lists -/

theorem dictGet?_eq_none_iff [BEq α] (d : Dict α β) (k : α) :
    dictGet? d k = none ↔ ∀ p ∈ d, ¬(p.1 == k) := by
  simp [dictGet?, List.find?_eq_none]

theorem find?_append_of_none (p : α → Bool) (l₁ l₂ : List α) (h : l₁.find? p = none) :
    (l₁ ++ l₂).find? p = l₂.find? p := by
  induction l₁ with
  | nil => rfl
  | cons a l ih =>
    cases hpa : p a
    · rw [List.cons_append, List.find?_cons_of_neg _ (by simp [hpa])]
      rw [List.find?_cons_of_neg _ (by simp [hpa])] at h
      exact ih h
    · rw [List.find?_cons_of_pos _ hpa] at h
      exact absurd h (by simp)

theorem dictInsert_fresh [BEq α] (d : Dict α β) (k : α) (v : β)
    (h : dictGet? d k = none) : dictInsert d k v = d ++ [(k, v)] := by
  unfold dictInsert
  rw [if_neg]
  intro hany
  rcases List.any_eq_true.1 hany with ⟨p, hp, hpk⟩
  exact ((dictGet?_eq_none_iff d k).1 h p hp) hpk

theorem foldl_enumFrom_regList (ps : List String) :
    ∀ (s : Nat) (d : Dict String Int), ps.Nodup → (∀ m ∈ ps, dictGet? d m = none) →
      (ps.enumFrom s).foldl (fun d p => dictInsert d p.2 ((p.1 : Int) + 1)) d
        = d ++ regList s ps := by
  induction ps with
  | nil =>
    intro s d _ _
    simp [regList]
  | cons m rest ih =>
    intro s d hnd hfresh
    show ((s, m) :: rest.enumFrom (s + 1)).foldl _ d = _
    rw [List.foldl_cons]
    have hstep : dictInsert d m ((s : Int) + 1) = d ++ [(m, (s : Int) + 1)] :=
      dictInsert_fresh _ _ _ (hfresh m (List.mem_cons_self _ _))
    show (rest.enumFrom (s + 1)).foldl _ (dictInsert d m ((s : Int) + 1)) = _
    rw [hstep, ih (s + 1) _ (List.Nodup.of_cons hnd) ?_]
    · rw [List.append_assoc]
      rfl
    · intro m2 hm2
      refine (dictGet?_eq_none_iff _ _).2 (fun p hp => ?_)
      rcases List.mem_append.1 hp with hmem | hmem
      · exact (dictGet?_eq_none_iff d m2).1 (hfresh m2 (List.mem_cons_of_mem _ hm2)) p hmem
      · have hpm : p = (m, (s : Int) + 1) := by simpa using hmem
        rw [hpm]
        simp only [beq_iff_eq]
        intro he
        exact (List.nodup_cons.1 hnd).1 (he ▸ hm2)

theorem mkMarkToNum_eq_regList (ps : List String) (hnd : ps.Nodup) :
    mkMarkToNum ps = regList 0 ps := by
  unfold mkMarkToNum
  have h := foldl_enumFrom_regList ps 0 [] hnd (fun m _ => rfl)
  simpa using h

theorem foldl_regList_invList (ps : List String) :
    ∀ (s : Nat) (d : Dict Int String), (∀ q ∈ d, q.1 ≤ (s : Int)) →
      (regList s ps).foldl (fun d p => dictInsert d p.2 p.1) d = d ++ invList s ps := by
  induction ps with
  | nil =>
    intro s d _
    simp [regList, invList]
  | cons m rest ih =>
    intro s d hbound
    show ((m, (s : Int) + 1) :: regList (s + 1) rest).foldl _ d = _
    rw [List.foldl_cons]
    have hstep : dictInsert d ((s : Int) + 1) m = d ++ [((s : Int) + 1, m)] := by
      refine dictInsert_fresh _ _ _ ((dictGet?_eq_none_iff _ _).2 (fun p hp => ?_))
      have := hbound p hp
      simp only [beq_iff_eq]
      omega
    show (regList (s + 1) rest).foldl _ (dictInsert d ((s : Int) + 1) m) = _
    rw [hstep, ih (s + 1) _ ?_]
    · rw [List.append_assoc]
      rfl
    · intro q hq
      rcases List.mem_append.1 hq with hmem | hmem
      · have := hbound q hmem
        push_cast
        omega
      · have hqe : q = ((s : Int) + 1, m) := by simpa using hmem
        rw [hqe]
        push_cast
        omega

theorem mkNumToMark_eq_invList (ps : List String) (hnd : ps.Nodup) :
    mkNumToMark (mkMarkToNum ps) = invList 0 ps := by
  rw [mkMarkToNum_eq_regList ps hnd]
  unfold mkNumToMark
  have h := foldl_regList_invList ps 0 [] (fun q hq => absurd hq (List.not_mem_nil q))
  simpa using h

theorem regList_lookup (ps : List String) (hnd : ps.Nodup) :
    ∀ (s i : Nat) (hi : i < ps.length),
      dictGet? (regList s ps) (ps.get ⟨i, hi⟩) = some ((s : Int) + i + 1) := by
  induction ps with
  | nil =>
    intro s i hi
    simp at hi
  | cons m rest ih =>
    intro s i hi
    match i with
    | 0 =>
      show dictGet? ((m, (s : Int) + 1) :: regList (s + 1) rest) m = _
      unfold dictGet?
      rw [List.find?_cons_of_pos _ (by simp)]
      simp
    | i + 1 =>
      have hi2 : i < rest.length := by
        simp only [List.length_cons] at hi
        omega
      show dictGet? ((m, (s : Int) + 1) :: regList (s + 1) rest) (rest.get ⟨i, hi2⟩) = _
      unfold dictGet?
      rw [List.find?_cons_of_neg _ ?_]
      · have h := ih (List.Nodup.of_cons hnd) (s + 1) i hi2
        unfold dictGet? at h
        rw [h]
        congr 1
        push_cast
        ring
      · simp only [beq_iff_eq]
        intro he
        exact (List.nodup_cons.1 hnd).1 (he ▸ rest.get_mem _ _)

theorem invList_lookup (ps : List String) :
    ∀ (s i : Nat) (hi : i < ps.length),
      dictGet? (invList s ps) ((s : Int) + i + 1) = some (ps.get ⟨i, hi⟩) := by
  induction ps with
  | nil =>
    intro s i hi
    simp at hi
  | cons m rest ih =>
    intro s i hi
    match i with
    | 0 =>
      show dictGet? (((s : Int) + 1, m) :: invList (s + 1) rest) _ = _
      unfold dictGet?
      rw [List.find?_cons_of_pos _ (by simp)]
      rfl
    | i + 1 =>
      have hi2 : i < rest.length := by
        simp only [List.length_cons] at hi
        omega
      show dictGet? (((s : Int) + 1, m) :: invList (s + 1) rest) _ = _
      unfold dictGet?
      rw [List.find?_cons_of_neg _ (by simp only [beq_iff_eq]; push_cast; omega)]
      have h := ih (s + 1) i hi2
      unfold dictGet? at h
      rw [show ((s : Int) + (i + 1 : Nat) + 1) = (((s + 1 : Nat) : Int) + i + 1) from by push_cast; ring]
      rw [h]
      rfl

theorem regList_keys (s : Nat) (ps : List String) : dictKeys (regList s ps) = ps := by
  induction ps generalizing s with
  | nil => rfl
  | cons m rest ih =>
    show m :: dictKeys (regList (s + 1) rest) = m :: rest
    rw [ih]

/-! ## Decimal printing and parsing -/

theorem digitCharFacts : ∀ d < 10,
    (Char.ofNat (48 + d)).toNat = 48 + d ∧
    isPyDigit (Char.ofNat (48 + d)) = true ∧
    digitVal (Char.ofNat (48 + d)) = d := by decide

theorem natCharsAux_digits :
    ∀ (fuel n : Nat), ∀ c ∈ natCharsAux fuel n, isPyDigit c = true := by
  intro fuel
  induction fuel with
  | zero => intro n c hc; simp [natCharsAux] at hc
  | succ f ih =>
    intro n c hc
    match n with
    | 0 => simp [natCharsAux] at hc
    | n + 1 =>
      rw [show natCharsAux (f + 1) (n + 1)
          = natCharsAux f ((n + 1) / 10) ++ [Char.ofNat (48 + (n + 1) % 10)] from rfl] at hc
      rcases List.mem_append.1 hc with h | h
      · exact ih _ c h
      · have hd := (digitCharFacts ((n + 1) % 10) (Nat.mod_lt _ (by omega))).2.1
        rw [List.mem_singleton.1 h]
        exact hd

theorem natCharsAux_value :
    ∀ (fuel n : Nat), n ≤ fuel →
      (natCharsAux fuel n).foldl (fun a c => 10 * a + digitVal c) 0 = n := by
  intro fuel
  induction fuel with
  | zero =>
    intro n hn
    match n, hn with
    | 0, _ => rfl
  | succ f ih =>
    intro n hn
    match n with
    | 0 => rfl
    | n + 1 =>
      rw [show natCharsAux (f + 1) (n + 1)
          = natCharsAux f ((n + 1) / 10) ++ [Char.ofNat (48 + (n + 1) % 10)] from rfl]
      rw [List.foldl_append]
      have hdiv : (n + 1) / 10 ≤ f := by
        have := Nat.div_lt_self (by omega : 0 < n + 1) (by omega : 1 < 10)
        omega
      rw [ih _ hdiv]
      show 10 * ((n + 1) / 10) + digitVal (Char.ofNat (48 + (n + 1) % 10)) = n + 1
      rw [(digitCharFacts ((n + 1) % 10) (Nat.mod_lt _ (by omega))).2.2]
      omega

theorem natChars_digits (k : Nat) : ∀ c ∈ natChars k, isPyDigit c = true := by
  intro c hc
  unfold natChars at hc
  split at hc
  · rw [List.mem_singleton.1 hc]
    decide
  · exact natCharsAux_digits k k c hc

theorem natChars_value (k : Nat) (hk : 1 ≤ k) :
    (natChars k).foldl (fun a c => 10 * a + digitVal c) 0 = k := by
  unfold natChars
  rw [if_neg (by omega)]
  exact natCharsAux_value k k (le_refl k)

theorem natChars_ne_nil (k : Nat) (hk : 1 ≤ k) : natChars k ≠ [] := by
  intro h
  have := natChars_value k hk
  rw [h] at this
  simp at this
  omega

theorem natChars_ne_zeroChar (k : Nat) (hk : 1 ≤ k) : natChars k ≠ ['0'] := by
  intro h
  have := natChars_value k hk
  rw [h] at this
  simp [digitVal] at this
  omega

theorem pduGo_digits :
    ∀ (cs : List Char) (acc : Nat), (∀ c ∈ cs, isPyDigit c = true) →
      pduGo acc cs = some (cs.foldl (fun a c => 10 * a + digitVal c) acc) := by
  intro cs
  induction cs with
  | nil => intro acc _; rfl
  | cons c rest ih =>
    intro acc hd
    have hc : isPyDigit c = true := hd c (List.mem_cons_self _ _)
    show pduGo acc (c :: rest) = _
    unfold pduGo
    rw [if_neg (by intro he; rw [he] at hc; exact absurd hc (by decide))]
    rw [if_pos hc]
    exact ih _ (fun x hx => hd x (List.mem_cons_of_mem _ hx))

theorem parseDigitsU_digits (cs : List Char) (hne : cs ≠ [])
    (hd : ∀ c ∈ cs, isPyDigit c = true) :
    parseDigitsU cs = some (cs.foldl (fun a c => 10 * a + digitVal c) 0) := by
  match cs, hne with
  | c :: rest, _ =>
    have hc : isPyDigit c = true := hd c (List.mem_cons_self _ _)
    show (if isPyDigit c = true then pduGo (digitVal c) rest else none) = _
    rw [if_pos hc]
    rw [pduGo_digits rest _ (fun x hx => hd x (List.mem_cons_of_mem _ hx))]
    rw [List.foldl_cons, show (10 : Nat) * 0 + digitVal c = digitVal c from by omega]

theorem isPyDigit_not_space {c : Char} (h : isPyDigit c = true) : isPySpace c = false := by
  unfold isPyDigit at h
  rw [Bool.and_eq_true, decide_eq_true_iff, decide_eq_true_iff] at h
  unfold isPySpace
  simp only [Bool.or_eq_false_iff, decide_eq_false_iff_not]
  omega

theorem dropWhile_eq_self_of_false {p : Char → Bool} {l : List Char}
    (h : ∀ c ∈ l, p c = false) : l.dropWhile p = l := by
  match l with
  | [] => rfl
  | c :: rest =>
    rw [List.dropWhile_cons, h c (List.mem_cons_self _ _)]
    simp

theorem stripPyWS_eq_self {cs : List Char} (h : ∀ c ∈ cs, isPySpace c = false) :
    stripPyWS cs = cs := by
  unfold stripPyWS
  rw [dropWhile_eq_self_of_false h]
  rw [dropWhile_eq_self_of_false (fun c hc => h c (List.mem_reverse.1 hc))]
  exact List.reverse_reverse cs

theorem pyIntCL_natChars (k : Nat) (hk : 1 ≤ k) :
    pyIntCL (natChars k) = .ok (k : Int) := by
  have hd := natChars_digits k
  have hstrip : stripPyWS (natChars k) = natChars k :=
    stripPyWS_eq_self (fun c hc => isPyDigit_not_space (hd c hc))
  unfold pyIntCL
  rw [hstrip]
  match hcs : natChars k, natChars_ne_nil k hk with
  | c :: rest, _ =>
    have hc : isPyDigit c = true := by
      apply hd
      rw [hcs]
      exact List.mem_cons_self _ _
    have hplus : c ≠ '+' := by
      intro he
      rw [he] at hc
      exact absurd hc (by decide)
    have hminus : c ≠ '-' := by
      intro he
      rw [he] at hc
      exact absurd hc (by decide)
    show (if c = '+' then _ else if c = '-' then _ else
        match parseDigitsU (c :: rest) with
        | some n => Except.ok (n : Int)
        | none => Except.error Err.valueErrorInt) = _
    rw [if_neg hplus, if_neg hminus]
    rw [parseDigitsU_digits (c :: rest) (by simp) (fun x hx => hd x (hcs ▸ hx))]
    have hval := natChars_value k hk
    rw [hcs] at hval
    rw [hval]


/-! ## The findall scanner, characterized -/

theorem takeCapture_exact (cap rest : List Char)
    (hcap : ∀ c ∈ cap, c ≠ ']' ∧ c ≠ '\n') :
    takeCapture (cap ++ ']' :: rest) = some (cap, rest) := by
  induction cap with
  | nil => rfl
  | cons c cs ih =>
    rcases hcap c (List.mem_cons_self _ _) with ⟨hc1, hc2⟩
    show takeCapture (c :: (cs ++ ']' :: rest)) = _
    unfold takeCapture
    rw [if_neg hc1, if_neg hc2]
    rw [ih (fun x hx => hcap x (List.mem_cons_of_mem _ hx))]
    rfl

theorem takeCapture_length :
    ∀ (cs cap rem : List Char), takeCapture cs = some (cap, rem) →
      rem.length < cs.length := by
  intro cs
  induction cs with
  | nil => intro cap rem h; exact absurd h (by simp [takeCapture])
  | cons c rest ih =>
    intro cap rem h
    unfold takeCapture at h
    by_cases h1 : c = ']'
    · rw [if_pos h1] at h
      have h3 : rest = rem := congrArg Prod.snd (Option.some.inj h)
      rw [← h3]
      simp
    · rw [if_neg h1] at h
      by_cases h2 : c = '\n'
      · rw [if_pos h2] at h
        exact absurd h (by simp)
      · rw [if_neg h2] at h
        cases htc : takeCapture rest with
        | none => rw [htc] at h; exact absurd h (by simp)
        | some pr =>
          rw [htc] at h
          have h5 : pr.2 = rem := congrArg Prod.snd (Option.some.inj h)
          have hlt := ih pr.1 pr.2 htc
          rw [← h5]
          simp only [List.length_cons]
          omega

theorem findBlocksGo_nil (tag : Char) : ∀ fuel, findBlocksGo tag fuel [] = [] := by
  intro fuel
  cases fuel <;> rfl

theorem findBlocksGo_fuel (tag : Char) :
    ∀ (f1 f2 : Nat) (l : List Char), l.length ≤ f1 → l.length ≤ f2 →
      findBlocksGo tag f1 l = findBlocksGo tag f2 l := by
  intro f1
  induction f1 with
  | zero =>
    intro f2 l h1 _
    have hl : l = [] := List.length_eq_zero.1 (by omega)
    rw [hl, findBlocksGo_nil, findBlocksGo_nil]
  | succ f1 ih =>
    intro f2 l h1 h2
    match l with
    | [] => rw [findBlocksGo_nil, findBlocksGo_nil]
    | c :: rest =>
      match f2, h2 with
      | f2 + 1, h2 =>
        simp only [List.length_cons] at h1 h2
        show findBlocksGo tag (f1 + 1) (c :: rest) = findBlocksGo tag (f2 + 1) (c :: rest)
        unfold findBlocksGo
        by_cases hc : c = tag ∧ rest.head? = some '['
        · rw [if_pos hc, if_pos hc]
          cases htc : takeCapture rest.tail with
          | none =>
            simp only [htc]
            exact ih f2 rest (by omega) (by omega)
          | some pr =>
            simp only [htc]
            have hlt := takeCapture_length rest.tail pr.1 pr.2 htc
            have htail : rest.tail.length ≤ rest.length := by
              cases rest <;> simp
            rw [ih f2 pr.2 (by omega) (by omega)]
        · rw [if_neg hc, if_neg hc]
          exact ih f2 rest (by omega) (by omega)

theorem findBlocksGo_eq_findBlocks (tag : Char) (fuel : Nat) (l : List Char)
    (h : l.length ≤ fuel) : findBlocksGo tag fuel l = findBlocks tag l :=
  findBlocksGo_fuel tag fuel l.length l h (le_refl _)

theorem findBlocks_cons_ne (tag c : Char) (l : List Char) (h : c ≠ tag) :
    findBlocks tag (c :: l) = findBlocks tag l := by
  show findBlocksGo tag (l.length + 1) (c :: l) = _
  unfold findBlocksGo
  rw [if_neg (fun hand => h hand.1)]
  rfl

theorem findBlocks_cons_tag (tag : Char) (l : List Char) (h : l.head? ≠ some '[') :
    findBlocks tag (tag :: l) = findBlocks tag l := by
  show findBlocksGo tag (l.length + 1) (tag :: l) = _
  unfold findBlocksGo
  rw [if_neg (fun hand => h hand.2)]
  rfl

theorem findBlocks_open (tag : Char) (cap rest : List Char)
    (hcap : ∀ c ∈ cap, c ≠ ']' ∧ c ≠ '\n') :
    findBlocks tag (tag :: '[' :: (cap ++ ']' :: rest)) = cap :: findBlocks tag rest := by
  show findBlocksGo tag ((cap ++ ']' :: rest).length + 1 + 1) _ = _
  unfold findBlocksGo
  rw [if_pos ⟨rfl, rfl⟩]
  show (match takeCapture (cap ++ ']' :: rest) with
    | some pr => pr.1 :: findBlocksGo tag ((cap ++ ']' :: rest).length + 1) pr.2
    | none => findBlocksGo tag ((cap ++ ']' :: rest).length + 1) ('[' :: (cap ++ ']' :: rest))) = _
  rw [takeCapture_exact cap rest hcap]
  show cap :: findBlocksGo tag ((cap ++ ']' :: rest).length + 1) rest = _
  rw [findBlocksGo_eq_findBlocks tag _ rest
    (by simp only [List.length_append, List.length_cons]; omega)]

theorem findBlocks_nil_of_no_tag (tag : Char) :
    ∀ l : List Char, (∀ c ∈ l, c ≠ tag) → findBlocks tag l = [] := by
  intro l
  induction l with
  | nil => intro _; rfl
  | cons c rest ih =>
    intro h
    rw [findBlocks_cons_ne tag c rest (h c (List.mem_cons_self _ _))]
    exact ih (fun x hx => h x (List.mem_cons_of_mem _ hx))

theorem findBlocks_blocks (tag : Char) (htag : tag ≠ '[') :
    ∀ (caps : List (List Char)), (∀ cs ∈ caps, ∀ c ∈ cs, c ≠ ']' ∧ c ≠ '\n') →
      findBlocks tag ((caps.map (fun cs => tag :: '[' :: (cs ++ [']']))).flatten) = caps := by
  intro caps
  induction caps with
  | nil => intro _; rfl
  | cons cs caps ih =>
    intro h
    show findBlocks tag ((tag :: '[' :: (cs ++ [']'])) ++ _) = _
    have hshape : (tag :: '[' :: (cs ++ [']'])) ++
        ((caps.map (fun cs => tag :: '[' :: (cs ++ [']']))).flatten)
        = tag :: '[' :: (cs ++ ']' ::
            ((caps.map (fun cs => tag :: '[' :: (cs ++ [']']))).flatten)) := by
      simp
    rw [hshape, findBlocks_open tag _ _ (h cs (List.mem_cons_self _ _))]
    rw [ih (fun x hx => h x (List.mem_cons_of_mem _ hx))]

theorem findBlocks_skip_marks (tag : Char) (l : List Char) (htag : tag ≠ ',')
    (hl : l.head? ≠ some '[') :
    ∀ ps : List String, (∀ m ∈ ps, m.toList.length = 1) →
      findBlocks tag (joinCommaCL (ps.map String.toList) ++ l) = findBlocks tag l := by
  intro ps
  induction ps with
  | nil => intro _; rfl
  | cons m rest ih =>
    intro hps
    rcases List.length_eq_one.1 (hps m (List.mem_cons_self _ _)) with ⟨c, hc⟩
    match rest with
    | [] =>
      show findBlocks tag (m.toList ++ l) = _
      rw [hc]
      show findBlocks tag (c :: l) = _
      by_cases hct : c = tag
      · rw [hct]
        exact findBlocks_cons_tag tag l hl
      · exact findBlocks_cons_ne tag c l hct
    | m2 :: rest2 =>
      show findBlocks tag
          ((m.toList ++ ',' :: joinCommaCL ((m2 :: rest2).map String.toList)) ++ l) = _
      rw [hc]
      show findBlocks tag
          (c :: ',' :: (joinCommaCL ((m2 :: rest2).map String.toList) ++ l)) = _
      have hstep1 : findBlocks tag
          (c :: ',' :: (joinCommaCL ((m2 :: rest2).map String.toList) ++ l))
          = findBlocks tag (',' :: (joinCommaCL ((m2 :: rest2).map String.toList) ++ l)) := by
        by_cases hct : c = tag
        · rw [hct]
          exact findBlocks_cons_tag tag _ (by simp)
        · exact findBlocks_cons_ne tag c _ hct
      rw [hstep1, findBlocks_cons_ne tag ',' _ (fun he => htag he.symm)]
      exact ih (fun x hx => hps x (List.mem_cons_of_mem _ hx))

/-! ## Comma splitting, monadic map, and mark shapes -/

theorem pySplitComma_append (xs : List Char) (h : ∀ c ∈ xs, c ≠ ',') :
    ∀ (cs r : List Char) (rs : List (List Char)), pySplitComma cs = r :: rs →
      pySplitComma (xs ++ cs) = (xs ++ r) :: rs := by
  induction xs with
  | nil => intro cs r rs hcs; simpa using hcs
  | cons x xs ih =>
    intro cs r rs hcs
    show pySplitComma (x :: (xs ++ cs)) = _
    unfold pySplitComma
    rw [if_neg (h x (List.mem_cons_self _ _))]
    rw [ih (fun c hc => h c (List.mem_cons_of_mem _ hc)) cs r rs hcs]
    rfl

theorem pySplitComma_nocomma (xs : List Char) (h : ∀ c ∈ xs, c ≠ ',') :
    pySplitComma xs = [xs] := by
  have hx := pySplitComma_append xs h [] [] [] rfl
  simpa using hx

theorem pySplitComma_join :
    ∀ (pieces : List (List Char)), pieces ≠ [] →
      (∀ p ∈ pieces, ∀ c ∈ p, c ≠ ',') →
      pySplitComma (joinCommaCL pieces) = pieces := by
  intro pieces
  induction pieces with
  | nil => intro h; exact absurd rfl h
  | cons x rest ih =>
    intro _ h
    match rest with
    | [] => exact pySplitComma_nocomma x (h x (List.mem_cons_self _ _))
    | y :: rest2 =>
      show pySplitComma (x ++ ',' :: joinCommaCL (y :: rest2)) = _
      have hrec := ih (by simp) (fun p hp => h p (List.mem_cons_of_mem _ hp))
      have hsplit : pySplitComma (',' :: joinCommaCL (y :: rest2)) = [] :: (y :: rest2) := by
        unfold pySplitComma
        rw [if_pos rfl, hrec]
      have happ := pySplitComma_append x (h x (List.mem_cons_self _ _)) _ _ _ hsplit
      simpa using happ

theorem mapE_ok_of_forall {α β : Type} {f : α → Except Err β} {g : α → β} :
    ∀ l : List α, (∀ a ∈ l, f a = .ok (g a)) → mapE f l = .ok (l.map g) := by
  intro l
  induction l with
  | nil => intro _; rfl
  | cons a rest ih =>
    intro h
    show mapE f (a :: rest) = _
    unfold mapE
    rw [h a (List.mem_cons_self _ _)]
    simp only [Bind.bind, Except.bind]
    rw [ih (fun x hx => h x (List.mem_cons_of_mem _ hx))]
    rfl

theorem mapE_ok_length {α β : Type} {f : α → Except Err β} :
    ∀ (l : List α) (l' : List β), mapE f l = .ok l' → l'.length = l.length := by
  intro l
  induction l with
  | nil =>
    intro l' h
    have := Except.ok.inj h
    rw [← this]
    rfl
  | cons a rest ih =>
    intro l' h
    unfold mapE at h
    simp only [Bind.bind, Except.bind] at h
    cases hfa : f a with
    | error e => rw [hfa] at h; exact absurd h (by simp)
    | ok b =>
      rw [hfa] at h
      cases hrest : mapE f rest with
      | error e => rw [hrest] at h; exact absurd h (by simp)
      | ok bs =>
        rw [hrest] at h
        have hbs := Except.ok.inj h
        rw [← hbs]
        simp only [List.length_cons]
        rw [ih bs hrest]

theorem validMark_single (m : String) (hbad : isBadMark m = false) :
    ∃ c : Char, m.toList = [c] ∧ isPySpace c = false := by
  have hnb : ¬(isBadMark m = true) := by simp [hbad]
  rw [isBadMark_iff] at hnb
  push_neg at hnb
  rcases hnb with ⟨hlen, hsp⟩
  rcases hsp with ⟨c, hcmem, hcsp⟩
  have hlen2 : m.toList.length = m.length := rfl
  have hpos : 0 < m.toList.length := List.length_pos.2 (List.ne_nil_of_mem hcmem)
  have hone : m.toList.length = 1 := by omega
  obtain ⟨c2, hc2⟩ := List.length_eq_one.1 hone
  refine ⟨c2, hc2, ?_⟩
  rw [hc2] at hcmem
  have : c = c2 := by simpa using hcmem
  rw [← this]
  simpa using hcsp

/-! ## Serialization format -/

theorem mapE_map_ok {α β γ : Type} {f : β → Except Err γ} {g : α → β} {h : α → γ} :
    ∀ l : List α, (∀ a ∈ l, f (g a) = .ok (h a)) → mapE f (l.map g) = .ok (l.map h) := by
  intro l
  induction l with
  | nil => intro _; rfl
  | cons a rest ih =>
    intro hall
    show mapE f (g a :: rest.map g) = _
    unfold mapE
    rw [hall a (List.mem_cons_self _ _)]
    simp only [Bind.bind, Except.bind]
    rw [ih (fun x hx => hall x (List.mem_cons_of_mem _ hx))]
    rfl

theorem isPyDigit_ne {c : Char} (h : isPyDigit c = true) :
    c ≠ 'P' ∧ c ≠ 'R' ∧ c ≠ '[' ∧ c ≠ ']' ∧ c ≠ ',' ∧ c ≠ '\n' := by
  unfold isPyDigit at h
  rw [Bool.and_eq_true, decide_eq_true_iff, decide_eq_true_iff] at h
  refine ⟨?_, ?_, ?_, ?_, ?_, ?_⟩ <;> (intro he; rw [he] at h; revert h; decide)

theorem joinCommaCL_chars :
    ∀ (pieces : List (List Char)) (c : Char), c ∈ joinCommaCL pieces →
      c = ',' ∨ ∃ p ∈ pieces, c ∈ p := by
  intro pieces
  induction pieces with
  | nil => intro c hc; simp [joinCommaCL] at hc
  | cons x rest ih =>
    intro c hc
    match rest with
    | [] =>
      right
      exact ⟨x, List.mem_cons_self _ _, hc⟩
    | y :: rest2 =>
      rw [show joinCommaCL (x :: y :: rest2) = x ++ ',' :: joinCommaCL (y :: rest2) from rfl] at hc
      rcases List.mem_append.1 hc with h | h
      · right
        exact ⟨x, List.mem_cons_self _ _, h⟩
      · rcases List.mem_cons.1 h with h | h
        · left; exact h
        · rcases ih c h with h | ⟨p, hp, hcp⟩
          · left; exact h
          · right; exact ⟨p, List.mem_cons_of_mem _ hp, hcp⟩

theorem pyOrDefault_of_ne_nil (ps : List String) (h : ps ≠ []) :
    pyOrDefault (some ps) = ps := by
  match ps, h with
  | p :: rest, _ => rfl

theorem pyOrDefault_ne_nil (pl : Option (List String)) : pyOrDefault pl ≠ [] := by
  match pl with
  | none => simp [pyOrDefault]
  | some [] => simp [pyOrDefault]
  | some (p :: rest) => simp [pyOrDefault]

theorem getBoardString_format (b : GameBoard) (ps : List String)
    (hnd : ps.Nodup)
    (hm2n : b.mark_to_num = mkMarkToNum ps)
    (hcells : ∀ r ∈ b.board, ∀ x ∈ r, x = " " ∨ x ∈ ps) :
    GameBoard.getBoardStringChars b = .ok (boardChars ps b.board) := by
  unfold boardChars rowBlockSpec cellCodeSpec
  have hcell : ∀ r ∈ b.board, ∀ cell ∈ r,
      cellCode b.mark_to_num cell
        = .ok (if cell = " " then ['0'] else natChars (ps.indexOf cell + 1)) := by
    intro r hr cell hc
    by_cases hsp : cell = " "
    · simp [cellCode, hsp]
    · rcases hcells r hr cell hc with h | h
      · exact absurd h hsp
      · unfold cellCode
        rw [if_neg hsp, if_neg hsp]
        rw [hm2n, mkMarkToNum_eq_regList ps hnd]
        have hidx : ps.indexOf cell < ps.length := List.indexOf_lt_length.2 h
        have hlook := regList_lookup ps hnd 0 (ps.indexOf cell) hidx
        rw [show ps.get ⟨ps.indexOf cell, hidx⟩ = cell from List.getElem_indexOf hidx] at hlook
        rw [hlook]
        show Except.ok (intChars ((0 : Int) + (ps.indexOf cell : Int) + 1)) = _
        congr 1
        unfold intChars
        rw [if_neg (by omega)]
        congr 1
        omega
  have houter : mapE (fun row => do
        let codes ← mapE (cellCode b.mark_to_num) row
        Except.ok ('R' :: '[' :: (joinCommaCL codes ++ [']']))) b.board
      = .ok (b.board.map (fun row =>
          'R' :: '[' :: (joinCommaCL (row.map (fun cell =>
            if cell = " " then ['0'] else natChars (ps.indexOf cell + 1))) ++ [']']))) := by
    apply mapE_ok_of_forall
    intro r hr
    rw [mapE_ok_of_forall r (hcell r hr)]
    rfl
  show (mapE _ b.board >>= fun rows => Except.ok _) = _
  rw [houter]
  simp only [Bind.bind, Except.bind]
  rw [hm2n, mkMarkToNum_eq_regList ps hnd]
  rw [show dictKeys (regList 0 ps) = ps from regList_keys 0 ps]

/-! ## Round trip of the board string -/

theorem marks_shape (ps : List String) (hvalid : ps.any isBadMark = false)
    (hsafe : ∀ m ∈ ps, m ≠ "," ∧ m ≠ "]") :
    ∀ m ∈ ps, ∃ c, m.toList = [c] ∧ isPySpace c = false ∧ c ≠ ',' ∧ c ≠ ']' := by
  intro m hm
  have hb : isBadMark m = false := by
    have := List.any_eq_false.1 hvalid m hm
    simpa using this
  rcases validMark_single m hb with ⟨c, hc, hcs⟩
  have hms : m = String.mk [c] := by
    conv_lhs => rw [show m = String.mk m.toList from rfl]
    rw [hc]
  refine ⟨c, hc, hcs, ?_, ?_⟩
  · intro he
    exact (hsafe m hm).1 (by rw [hms, he])
  · intro he
    exact (hsafe m hm).2 (by rw [hms, he])

theorem marksJ_chars (ps : List String)
    (hmk : ∀ m ∈ ps, ∃ c, m.toList = [c] ∧ isPySpace c = false ∧ c ≠ ',' ∧ c ≠ ']') :
    ∀ c ∈ joinCommaCL (ps.map String.toList), c ≠ ']' ∧ c ≠ '\n' := by
  intro c hc
  rcases joinCommaCL_chars _ c hc with h | ⟨p, hp, hcp⟩
  · rw [h]
    exact ⟨by decide, by decide⟩
  · rcases List.mem_map.1 hp with ⟨m, hm, rfl⟩
    rcases hmk m hm with ⟨c2, hc2, hcs, _, hcb⟩
    rw [hc2] at hcp
    rw [show c = c2 from by simpa using hcp]
    refine ⟨hcb, ?_⟩
    intro he
    rw [he] at hcs
    exact absurd hcs (by decide)

theorem cellCodeSpec_digits (ps : List String) (cell : String) :
    ∀ c ∈ cellCodeSpec ps cell, isPyDigit c = true := by
  intro c hc
  unfold cellCodeSpec at hc
  split at hc
  · rw [List.mem_singleton.1 hc]
    decide
  · exact natChars_digits _ c hc

theorem findBlocks_P_boardChars (ps : List String) (board : List (List String))
    (hmk : ∀ m ∈ ps, ∃ c, m.toList = [c] ∧ isPySpace c = false ∧ c ≠ ',' ∧ c ≠ ']') :
    findBlocks 'P' (boardChars ps board) = [joinCommaCL (ps.map String.toList)] := by
  unfold boardChars
  rw [findBlocks_open 'P' _ _ (marksJ_chars ps hmk)]
  rw [findBlocks_nil_of_no_tag]
  intro c hc
  rcases List.mem_cons.1 hc with h | h
  · rw [h]; decide
  · rcases List.mem_flatten.1 h with ⟨blk, hblk, hcblk⟩
    rcases List.mem_map.1 hblk with ⟨row, _, rfl⟩
    unfold rowBlockSpec at hcblk
    rcases List.mem_cons.1 hcblk with h1 | h1
    · rw [h1]; decide
    rcases List.mem_cons.1 h1 with h2 | h2
    · rw [h2]; decide
    rcases List.mem_append.1 h2 with h3 | h3
    · rcases joinCommaCL_chars _ c h3 with h4 | ⟨tok, htok, hctok⟩
      · rw [h4]; decide
      · rcases List.mem_map.1 htok with ⟨cell, _, rfl⟩
        exact (isPyDigit_ne (cellCodeSpec_digits ps cell c hctok)).1
    · rw [List.mem_singleton.1 h3]; decide

theorem findBlocks_R_boardChars (ps : List String) (board : List (List String))
    (hmk : ∀ m ∈ ps, ∃ c, m.toList = [c] ∧ isPySpace c = false ∧ c ≠ ',' ∧ c ≠ ']') :
    findBlocks 'R' (boardChars ps board)
      = board.map (fun row => joinCommaCL (row.map (cellCodeSpec ps))) := by
  unfold boardChars
  rw [findBlocks_cons_ne 'R' 'P' _ (by decide)]
  rw [findBlocks_cons_ne 'R' '[' _ (by decide)]
  rw [findBlocks_skip_marks 'R' _ (by decide) (by simp) ps
    (fun m hm => by rcases hmk m hm with ⟨c, hc, _⟩; rw [hc]; rfl)]
  rw [findBlocks_cons_ne 'R' ']' _ (by decide)]
  rw [findBlocks_cons_ne 'R' '=' _ (by decide)]
  have hfl : board.map (rowBlockSpec ps)
      = (board.map (fun row => joinCommaCL (row.map (cellCodeSpec ps)))).map
          (fun cs => 'R' :: '[' :: (cs ++ [']'])) := by
    rw [List.map_map]
    rfl
  rw [hfl]
  apply findBlocks_blocks 'R' (by decide)
  intro cs hcs c hc
  rcases List.mem_map.1 hcs with ⟨row, _, rfl⟩
  rcases joinCommaCL_chars _ c hc with h | ⟨tok, htok, hctok⟩
  · rw [h]
    exact ⟨by decide, by decide⟩
  · rcases List.mem_map.1 htok with ⟨cell, _, rfl⟩
    have hd := cellCodeSpec_digits ps cell c hctok
    exact ⟨(isPyDigit_ne hd).2.2.2.1, (isPyDigit_ne hd).2.2.2.2.2⟩

theorem parseCellToken_roundtrip (ps : List String) (hnd : ps.Nodup) (cell : String)
    (h : cell = " " ∨ cell ∈ ps) :
    parseCellToken (mkNumToMark (mkMarkToNum ps)) (cellCodeSpec ps cell) = .ok cell := by
  by_cases hsp : cell = " "
  · rw [hsp]
    rfl
  · rcases h with h | h
    · exact absurd h hsp
    unfold cellCodeSpec
    rw [if_neg hsp]
    unfold parseCellToken
    have hidx : ps.indexOf cell < ps.length := List.indexOf_lt_length.2 h
    rw [if_neg (natChars_ne_zeroChar _ (by omega))]
    simp only [Bind.bind, Except.bind]
    rw [pyIntCL_natChars _ (by omega)]
    rw [mkNumToMark_eq_invList ps hnd]
    have hlook := invList_lookup ps 0 (ps.indexOf cell) hidx
    rw [show ps.get ⟨ps.indexOf cell, hidx⟩ = cell from List.getElem_indexOf hidx] at hlook
    rw [show ((ps.indexOf cell + 1 : Nat) : Int) = ((0 : Nat) : Int) + ps.indexOf cell + 1
      from by push_cast; ring]
    show (match dictGet? (invList 0 ps) (((0 : Nat) : Int) + ps.indexOf cell + 1) with
      | some mark => Except.ok mark
      | none => Except.error Err.keyError) = Except.ok cell
    rw [hlook]

theorem loadBoardString_roundtrip (b : GameBoard) (ps : List String)
    (hnd : ps.Nodup) (hne : ps ≠ [])
    (hvalid : ps.any isBadMark = false)
    (hsafe : ∀ m ∈ ps, m ≠ "," ∧ m ≠ "]")
    (hm2n : b.mark_to_num = mkMarkToNum ps)
    (hn2m : b.num_to_mark = mkNumToMark (mkMarkToNum ps))
    (hcells : ∀ r ∈ b.board, ∀ x ∈ r, x = " " ∨ x ∈ ps)
    (hrows : ∀ r ∈ b.board, r ≠ []) :
    GameBoard.getBoardString b = .ok (String.mk (boardChars ps b.board)) ∧
    GameBoard.loadBoardString b (String.mk (boardChars ps b.board)) = .ok b := by
  have hmk := marks_shape ps hvalid hsafe
  constructor
  · unfold GameBoard.getBoardString
    rw [getBoardString_format b ps hnd hm2n hcells]
    rfl
  · unfold GameBoard.loadBoardString
    have htl : (String.mk (boardChars ps b.board)).toList = boardChars ps b.board := rfl
    rw [htl]
    have hsplitP : pySplitComma (joinCommaCL (ps.map String.toList))
        = ps.map String.toList := by
      apply pySplitComma_join
      · intro hc
        exact hne (List.map_eq_nil.1 hc)
      · intro p hp c hc
        rcases List.mem_map.1 hp with ⟨m, hm, rfl⟩
        rcases hmk m hm with ⟨c2, hc2, _, hcc, _⟩
        rw [hc2] at hc
        rw [show c = c2 from by simpa using hc]
        exact hcc
    have hmkmap : (ps.map String.toList).map String.mk = ps := by
      rw [List.map_map]
      have hco : (String.mk ∘ String.toList) = @id String := funext (fun m => rfl)
      rw [hco, List.map_id]
    have hset : GameBoard.setPlayers (some ps)
        = .ok (mkMarkToNum ps, mkNumToMark (mkMarkToNum ps)) := by
      rcases hps : ps with _ | ⟨p0, rest⟩
      · exact absurd hps hne
      · rw [hps] at hvalid
        unfold GameBoard.setPlayers
        show (if (p0 :: rest).any isBadMark = true then Except.error Err.configMark
          else Except.ok (mkMarkToNum (p0 :: rest), mkNumToMark (mkMarkToNum (p0 :: rest)))) = _
        rw [hvalid]
        simp
    have hparse : mapE (fun r => mapE (parseCellToken (mkNumToMark (mkMarkToNum ps)))
          (pySplitComma r))
        (b.board.map (fun row => joinCommaCL (row.map (cellCodeSpec ps))))
        = .ok b.board := by
      have hmain := mapE_map_ok
        (f := fun r => mapE (parseCellToken (mkNumToMark (mkMarkToNum ps))) (pySplitComma r))
        (g := fun row => joinCommaCL (row.map (cellCodeSpec ps))) (h := id) b.board ?_
      · rw [List.map_id] at hmain
        exact hmain
      · intro row hrow
        have hsplitR : pySplitComma (joinCommaCL (row.map (cellCodeSpec ps)))
            = row.map (cellCodeSpec ps) := by
          apply pySplitComma_join
          · intro hcon
            exact (hrows row hrow) (List.map_eq_nil.1 hcon)
          · intro p hp c hc
            rcases List.mem_map.1 hp with ⟨cell, _, rfl⟩
            exact (isPyDigit_ne (cellCodeSpec_digits ps cell c hc)).2.2.2.2.1
        show mapE _ (pySplitComma (joinCommaCL (row.map (cellCodeSpec ps)))) = _
        rw [hsplitR]
        have hcellmap := mapE_map_ok
          (f := parseCellToken (mkNumToMark (mkMarkToNum ps)))
          (g := cellCodeSpec ps) (h := id) row
          (fun cell hcell => parseCellToken_roundtrip ps hnd cell (hcells row hrow cell hcell))
        rw [List.map_id] at hcellmap
        exact hcellmap
    simp only [findBlocks_P_boardChars ps b.board hmk]
    rw [hsplitP, hmkmap, hset]
    simp only [Bind.bind, Except.bind]
    rw [findBlocks_R_boardChars ps b.board hmk, hparse]
    rw [← hn2m, ← hm2n]

/-! ## Invariants of reachable boards -/

theorem mkMarkToNum_key_mem (ps : List String) :
    ∀ q ∈ mkMarkToNum ps, q.1 ∈ ps := by
  intro q hq
  unfold mkMarkToNum at hq
  refine foldl_dictInsert_invariant (fun q => q.1 ∈ ps)
    (fun p => (p.2, (p.1 : Int) + 1)) ps.enum [] (by simp) (fun x hx => ?_) q hq
  exact List.snd_mem_of_mem_enum hx

theorem markerFromPlayer_registered (b : GameBoard) (mp : MarkOrNum) (m : String)
    (h : GameBoard.markerFromPlayer b mp = .ok m) :
    (dictGet? b.mark_to_num m).isSome := by
  cases mp with
  | num n =>
    have h2 : (match dictGet? b.num_to_mark n with
        | none => Except.error Err.keyError
        | some marker =>
          if (dictGet? b.mark_to_num marker).isSome = true then Except.ok marker
          else Except.error Err.invalidPlayer) = Except.ok m := h
    cases hd : dictGet? b.num_to_mark n with
    | none =>
      rw [hd] at h2
      exact Except.noConfusion h2
    | some marker =>
      rw [hd] at h2
      have h3 : (if (dictGet? b.mark_to_num marker).isSome = true then Except.ok marker
          else Except.error Err.invalidPlayer) = Except.ok m := h2
      by_cases hs : (dictGet? b.mark_to_num marker).isSome = true
      · rw [if_pos hs] at h3
        rwa [← Except.ok.inj h3]
      · rw [if_neg hs] at h3
        exact Except.noConfusion h3
  | mark marker =>
    have h3 : (if (dictGet? b.mark_to_num marker).isSome = true then Except.ok marker
        else Except.error Err.invalidPlayer) = Except.ok m := h
    by_cases hs : (dictGet? b.mark_to_num marker).isSome = true
    · rw [if_pos hs] at h3
      rwa [← Except.ok.inj h3]
    · rw [if_neg hs] at h3
      exact Except.noConfusion h3

theorem markerFromPlayer_mem (b : GameBoard) (ps : List String)
    (hm2n : b.mark_to_num = mkMarkToNum ps) (mp : MarkOrNum) (m : String)
    (h : GameBoard.markerFromPlayer b mp = .ok m) : m ∈ ps := by
  have hsome := markerFromPlayer_registered b mp m h
  rw [hm2n] at hsome
  rcases Option.isSome_iff_exists.1 hsome with ⟨v, hv⟩
  unfold dictGet? at hv
  rcases Option.map_eq_some'.1 hv with ⟨p, hp, _⟩
  have hmem := List.mem_of_find?_eq_some hp
  have hkey := List.find?_some hp
  have := mkMarkToNum_key_mem ps p hmem
  rwa [beq_iff_eq.1 hkey] at this

theorem placeAt_eq (b : GameBoard) (row col : Int) (mp : MarkOrNum) (m : String)
    (hm : GameBoard.markerFromPlayer b mp = .ok m) :
    GameBoard.placeAt b row col mp =
      if -(b.board.length : Int) ≤ row ∧ row < b.board.length then
        if -((b.board.getD (normIdx b.board.length row) default).length : Int) ≤ col
            ∧ col < (b.board.getD (normIdx b.board.length row) default).length then
          if (b.board.getD (normIdx b.board.length row) default).getD
              (normIdx (b.board.getD (normIdx b.board.length row) default).length col)
              default ≠ " " then .error .occupied
          else .ok { b with board := (b.board.set (normIdx b.board.length row)
            ((b.board.getD (normIdx b.board.length row) default).set
              (normIdx (b.board.getD (normIdx b.board.length row) default).length col) m)) }
        else .error .indexError
      else .error .indexError := by
  have key : GameBoard.placeAt b row col mp =
      (pyGetIdx b.board row >>= fun rowList =>
        pyGetIdx rowList col >>= fun existing =>
          if existing ≠ " " then .error .occupied
          else pySetIdx rowList col m >>= fun newRow =>
            pySetIdx b.board row newRow >>= fun newBoard =>
              .ok { b with board := newBoard }) := by
    unfold GameBoard.placeAt
    rw [hm]
    rfl
  rw [key, pyGetIdx_eq]
  by_cases hr : -(b.board.length : Int) ≤ row ∧ row < (b.board.length : Int)
  · rw [if_pos hr, if_pos hr]
    simp only [Bind.bind, Except.bind]
    rw [pyGetIdx_eq]
    by_cases hc : -((b.board.getD (normIdx b.board.length row) default).length : Int) ≤ col
        ∧ col < ((b.board.getD (normIdx b.board.length row) default).length : Int)
    · rw [if_pos hc, if_pos hc]
      simp only []
      by_cases hocc : (b.board.getD (normIdx b.board.length row) default).getD
          (normIdx (b.board.getD (normIdx b.board.length row) default).length col)
          default ≠ " "
      · rw [if_pos hocc, if_pos hocc]
      · rw [if_neg hocc, if_neg hocc]
        rw [pySetIdx_eq, if_pos hc]
        simp only []
        rw [pySetIdx_eq, if_pos hr]
    · rw [if_neg hc, if_neg hc]
  · rw [if_neg hr, if_neg hr]
    rfl

theorem placeAt_ok_inv (b b' : GameBoard) (row col : Int) (mp : MarkOrNum)
    (h : GameBoard.placeAt b row col mp = .ok b') :
    ∃ (m : String) (j k : Nat), GameBoard.markerFromPlayer b mp = .ok m ∧
      j < b.board.length ∧
      b' = { b with board := b.board.set j ((b.board.getD j []).set k m) } := by
  cases hm : GameBoard.markerFromPlayer b mp with
  | error e =>
    have key : GameBoard.placeAt b row col mp = .error e := by
      unfold GameBoard.placeAt
      rw [hm]
      rfl
    rw [key] at h
    exact Except.noConfusion h
  | ok m =>
    rw [placeAt_eq b row col mp m hm] at h
    by_cases hr : -(b.board.length : Int) ≤ row ∧ row < (b.board.length : Int)
    case neg => rw [if_neg hr] at h; exact Except.noConfusion h
    rw [if_pos hr] at h
    by_cases hc : -((b.board.getD (normIdx b.board.length row) default).length : Int) ≤ col
        ∧ col < ((b.board.getD (normIdx b.board.length row) default).length : Int)
    case neg => rw [if_neg hc] at h; exact Except.noConfusion h
    rw [if_pos hc] at h
    by_cases hocc : (b.board.getD (normIdx b.board.length row) default).getD
        (normIdx (b.board.getD (normIdx b.board.length row) default).length col)
        default ≠ " "
    case pos => rw [if_pos hocc] at h; exact Except.noConfusion h
    rw [if_neg hocc] at h
    refine ⟨m, normIdx b.board.length row,
      normIdx (b.board.getD (normIdx b.board.length row) default).length col, rfl, ?_, ?_⟩
    · unfold normIdx
      split <;> omega
    · exact (Except.ok.inj h).symm

theorem reached_invariant (b : GameBoard) (ps : List String) (h : Reached b ps) :
    ps ≠ [] ∧ ps.any isBadMark = false ∧
    b.mark_to_num = mkMarkToNum ps ∧ b.num_to_mark = mkNumToMark (mkMarkToNum ps) ∧
    2 ≤ b.size ∧ b.board.length = b.size ∧ (∀ r ∈ b.board, r.length = b.size) ∧
    (∀ r ∈ b.board, ∀ x ∈ r, x = " " ∨ x ∈ ps) := by
  induction h with
  | init size pl b hinit =>
    unfold GameBoard.init at hinit
    by_cases hsz : size < 2
    · rw [if_pos hsz] at hinit
      exact Except.noConfusion hinit
    · rw [if_neg hsz] at hinit
      by_cases hbad : (pyOrDefault pl).any isBadMark = true
      · have hsp : GameBoard.setPlayers pl = .error .configMark := by
          unfold GameBoard.setPlayers
          show (if (pyOrDefault pl).any isBadMark = true then Except.error Err.configMark
            else Except.ok (mkMarkToNum (pyOrDefault pl),
              mkNumToMark (mkMarkToNum (pyOrDefault pl)))) = _
          rw [if_pos hbad]
        rw [hsp] at hinit
        simp [Bind.bind, Except.bind] at hinit
      · have hsp : GameBoard.setPlayers pl
            = .ok (mkMarkToNum (pyOrDefault pl), mkNumToMark (mkMarkToNum (pyOrDefault pl))) := by
          unfold GameBoard.setPlayers
          show (if (pyOrDefault pl).any isBadMark = true then Except.error Err.configMark
            else Except.ok (mkMarkToNum (pyOrDefault pl),
              mkNumToMark (mkMarkToNum (pyOrDefault pl)))) = _
          rw [if_neg hbad]
        rw [hsp] at hinit
        simp only [Bind.bind, Except.bind] at hinit
        have hb := (Except.ok.inj hinit).symm
        refine ⟨pyOrDefault_ne_nil pl, by simpa using hbad, by rw [hb], by rw [hb], ?_, ?_, ?_, ?_⟩
        · rw [hb]
          show 2 ≤ size.toNat
          omega
        · rw [hb]
          simp
        · rw [hb]
          intro r hr
          rw [List.eq_of_mem_replicate hr]
          simp
        · rw [hb]
          intro r hr x hx
          rw [List.eq_of_mem_replicate hr] at hx
          exact Or.inl (List.eq_of_mem_replicate hx)
  | place b b' ps r c mp hre hplace ih =>
    rcases ih with ⟨h1, h2, h3, h4, h5, h6, h7, h8⟩
    rcases placeAt_ok_inv b b' r c mp hplace with ⟨m, j, k, hm, hj, hb'⟩
    have hmmem : m ∈ ps := markerFromPlayer_mem b ps h3 mp m hm
    have hrowmem : b.board.getD j [] ∈ b.board := by
      rw [List.getD_eq_getElem _ _ hj]
      exact List.getElem_mem hj
    refine ⟨h1, h2, by rw [hb']; exact h3, by rw [hb']; exact h4,
      by rw [hb']; exact h5, ?_, ?_, ?_⟩
    · rw [hb']
      show (b.board.set j _).length = _
      rw [List.length_set]
      exact h6
    · rw [hb']
      intro row hrow
      rcases List.mem_or_eq_of_mem_set hrow with hmem | heq
      · exact h7 row hmem
      · rw [heq, List.length_set]
        exact h7 _ hrowmem
    · rw [hb']
      intro row hrow x hx
      rcases List.mem_or_eq_of_mem_set hrow with hmem | heq
      · exact h8 row hmem x hx
      · rw [heq] at hx
        rcases List.mem_or_eq_of_mem_set hx with hxm | hxe
        · exact h8 _ hrowmem x hxm
        · rw [hxe]
          exact Or.inr hmmem

/-! ## Serialization for arbitrary (possibly duplicate-mark) registries -/

theorem dictKeys_dictInsert_self (d : Dict String Int) (k : String) (v : Int) :
    k ∈ dictKeys (dictInsert d k v) := by
  unfold dictInsert dictKeys
  by_cases h : d.any (fun p => p.1 == k) = true
  · rw [if_pos h]
    rcases List.any_eq_true.1 h with ⟨p, hp, hpk⟩
    refine List.mem_map.2 ⟨(k, v), List.mem_map.2 ⟨p, hp, ?_⟩, rfl⟩
    rw [if_pos hpk]
  · rw [if_neg h]
    rw [List.map_append]
    refine List.mem_append.2 (Or.inr ?_)
    exact List.mem_map.2 ⟨(k, v), List.mem_singleton.2 rfl, rfl⟩

theorem dictKeys_dictInsert_mono (d : Dict String Int) (k k' : String) (v : Int)
    (h : k' ∈ dictKeys d) : k' ∈ dictKeys (dictInsert d k v) := by
  unfold dictKeys at h
  unfold dictInsert dictKeys
  rcases List.mem_map.1 h with ⟨p, hp, hpk⟩
  by_cases hc : d.any (fun p => p.1 == k) = true
  · rw [if_pos hc]
    by_cases hpe : (p.1 == k) = true
    · refine List.mem_map.2 ⟨(k, v), List.mem_map.2 ⟨p, hp, ?_⟩, ?_⟩
      · rw [if_pos hpe]
      · show k = k'
        rw [← hpk]
        exact (beq_iff_eq.1 hpe).symm
    · refine List.mem_map.2 ⟨p, List.mem_map.2 ⟨p, hp, ?_⟩, hpk⟩
      rw [if_neg hpe]
  · rw [if_neg hc]
    rw [List.map_append]
    exact List.mem_append.2 (Or.inl (List.mem_map.2 ⟨p, hp, hpk⟩))

theorem mem_dictKeys_mkMarkToNum (ps : List String) (m : String) (hm : m ∈ ps) :
    m ∈ dictKeys (mkMarkToNum ps) := by
  have hgen : ∀ (l : List (Nat × String)) (d : Dict String Int),
      m ∈ dictKeys d ∨ (∃ p ∈ l, p.2 = m) →
      m ∈ dictKeys (l.foldl (fun d p => dictInsert d p.2 ((p.1 : Int) + 1)) d) := by
    intro l
    induction l with
    | nil =>
      intro d hd
      rcases hd with hd | ⟨p, hp, _⟩
      · exact hd
      · exact absurd hp (List.not_mem_nil p)
    | cons a l ih =>
      intro d hd
      rw [List.foldl_cons]
      apply ih
      rcases hd with hd | ⟨p, hp, hpm⟩
      · exact Or.inl (dictKeys_dictInsert_mono d a.2 m ((a.1 : Int) + 1) hd)
      · rcases List.mem_cons.1 hp with heq | hpl
        · left
          rw [heq] at hpm
          rw [← hpm]
          exact dictKeys_dictInsert_self d a.2 ((a.1 : Int) + 1)
        · exact Or.inr ⟨p, hpl, hpm⟩
  unfold mkMarkToNum
  apply hgen
  right
  have hmm : m ∈ ps.enum.map Prod.snd := by
    rw [List.enum_map_snd]
    exact hm
  rcases List.mem_map.1 hmm with ⟨p, hp, hpm⟩
  exact ⟨p, hp, hpm⟩

theorem dictGet?_some_of_mem_keys (d : Dict String Int) (k : String)
    (h : k ∈ dictKeys d) : ∃ v, dictGet? d k = some v := by
  cases hg : dictGet? d k with
  | some v => exact ⟨v, rfl⟩
  | none =>
    unfold dictKeys at h
    rcases List.mem_map.1 h with ⟨p, hp, hpk⟩
    exact absurd (beq_iff_eq.2 hpk) ((dictGet?_eq_none_iff d k).1 hg p hp)

theorem getBoardString_formatD (b : GameBoard)
    (hcells : ∀ r ∈ b.board, ∀ x ∈ r, x = " " ∨ x ∈ dictKeys b.mark_to_num) :
    GameBoard.getBoardStringChars b = .ok (boardCharsD b.mark_to_num b.board) := by
  unfold boardCharsD rowBlockD
  have hcell : ∀ r ∈ b.board, ∀ cell ∈ r,
      cellCode b.mark_to_num cell = .ok (cellCodeD b.mark_to_num cell) := by
    intro r hr cell hc
    by_cases hsp : cell = " "
    · simp [cellCode, cellCodeD, hsp]
    · rcases hcells r hr cell hc with h | h
      · exact absurd h hsp
      · rcases dictGet?_some_of_mem_keys b.mark_to_num cell h with ⟨v, hv⟩
        unfold cellCode cellCodeD
        rw [if_neg hsp, if_neg hsp, hv]
        rfl
  have houter : mapE (fun row => do
        let codes ← mapE (cellCode b.mark_to_num) row
        Except.ok ('R' :: '[' :: (joinCommaCL codes ++ [']']))) b.board
      = .ok (b.board.map (fun row =>
          'R' :: '[' :: (joinCommaCL (row.map (cellCodeD b.mark_to_num)) ++ [']']))) := by
    apply mapE_ok_of_forall
    intro r hr
    rw [mapE_ok_of_forall r (hcell r hr)]
    rfl
  show (mapE _ b.board >>= fun rows => Except.ok _) = _
  rw [houter]
  rfl

/-! ## Error behavior of load_board_string -/

theorem pySplitComma_ne_nil : ∀ l : List Char, pySplitComma l ≠ [] := by
  intro l
  induction l with
  | nil => simp [pySplitComma]
  | cons c rest ih =>
    show pySplitComma (c :: rest) ≠ []
    unfold pySplitComma
    by_cases hc : c = ','
    · rw [if_pos hc]
      simp
    · rw [if_neg hc]
      cases hr : pySplitComma rest with
      | nil => simp
      | cons r rs => simp

theorem setPlayers_cases (pl : Option (List String)) :
    (GameBoard.setPlayers pl = .error .configMark
      ∧ (pyOrDefault pl).any isBadMark = true) ∨
    (GameBoard.setPlayers pl
      = .ok (mkMarkToNum (pyOrDefault pl), mkNumToMark (mkMarkToNum (pyOrDefault pl)))
      ∧ (pyOrDefault pl).any isBadMark = false) := by
  by_cases hbad : (pyOrDefault pl).any isBadMark = true
  · left
    refine ⟨?_, hbad⟩
    unfold GameBoard.setPlayers
    show (if (pyOrDefault pl).any isBadMark = true then Except.error Err.configMark
      else Except.ok (mkMarkToNum (pyOrDefault pl),
        mkNumToMark (mkMarkToNum (pyOrDefault pl)))) = _
    rw [if_pos hbad]
  · right
    refine ⟨?_, by simpa using hbad⟩
    unfold GameBoard.setPlayers
    show (if (pyOrDefault pl).any isBadMark = true then Except.error Err.configMark
      else Except.ok (mkMarkToNum (pyOrDefault pl),
        mkNumToMark (mkMarkToNum (pyOrDefault pl)))) = _
    rw [if_neg hbad]

theorem setPlayers_error (pl : Option (List String)) (e : Err)
    (h : GameBoard.setPlayers pl = .error e) : e = .configMark := by
  rcases setPlayers_cases pl with ⟨hc, _⟩ | ⟨hc, _⟩
  · rw [hc] at h
    exact (Except.error.inj h).symm
  · rw [hc] at h
    exact Except.noConfusion h

theorem setPlayers_bad (pl : List String) (hne : pl ≠ [])
    (hbad : pl.any isBadMark = true) :
    GameBoard.setPlayers (some pl) = .error .configMark := by
  rcases setPlayers_cases (some pl) with ⟨hc, _⟩ | ⟨_, hf⟩
  · exact hc
  · rw [pyOrDefault_of_ne_nil pl hne] at hf
    rw [hbad] at hf
    exact Bool.noConfusion hf

theorem pyIntCL_error_kind (cs : List Char) (e : Err) (h : pyIntCL cs = .error e) :
    e = .valueErrorInt := by
  unfold pyIntCL at h
  cases hs : stripPyWS cs with
  | nil =>
    rw [hs] at h
    exact (Except.error.inj h).symm
  | cons c rest =>
    rw [hs] at h
    simp only [] at h
    by_cases hp : c = '+'
    · rw [if_pos hp] at h
      cases hd : parseDigitsU rest with
      | some n => rw [hd] at h; exact Except.noConfusion h
      | none => rw [hd] at h; exact (Except.error.inj h).symm
    · rw [if_neg hp] at h
      by_cases hm : c = '-'
      · rw [if_pos hm] at h
        cases hd : parseDigitsU rest with
        | some n => rw [hd] at h; exact Except.noConfusion h
        | none => rw [hd] at h; exact (Except.error.inj h).symm
      · rw [if_neg hm] at h
        cases hd : parseDigitsU (c :: rest) with
        | some n => rw [hd] at h; exact Except.noConfusion h
        | none => rw [hd] at h; exact (Except.error.inj h).symm

theorem parseCellToken_error_kinds (d : Dict Int String) (tok : List Char) (e : Err)
    (h : parseCellToken d tok = .error e) : e = .valueErrorInt ∨ e = .keyError := by
  unfold parseCellToken at h
  by_cases htok : tok = ['0']
  · rw [if_pos htok] at h
    exact Except.noConfusion h
  · rw [if_neg htok] at h
    simp only [Bind.bind, Except.bind] at h
    cases hint : pyIntCL tok with
    | error e2 =>
      rw [hint] at h
      left
      rw [← Except.error.inj h]
      exact pyIntCL_error_kind tok e2 hint
    | ok n =>
      rw [hint] at h
      simp only [] at h
      cases hd : dictGet? d n with
      | none =>
        rw [hd] at h
        right
        exact (Except.error.inj h).symm
      | some m =>
        rw [hd] at h
        exact Except.noConfusion h

theorem mapE_error_mem {α β : Type} {f : α → Except Err β} :
    ∀ (l : List α) (e : Err), mapE f l = .error e → ∃ x ∈ l, f x = .error e := by
  intro l
  induction l with
  | nil =>
    intro e h
    exact Except.noConfusion h
  | cons a rest ih =>
    intro e h
    unfold mapE at h
    simp only [Bind.bind, Except.bind] at h
    cases hfa : f a with
    | error e2 =>
      rw [hfa] at h
      have he2 : e2 = e := Except.error.inj h
      refine ⟨a, List.mem_cons_self _ _, ?_⟩
      rw [hfa, he2]
    | ok b =>
      rw [hfa] at h
      simp only [] at h
      cases hrest : mapE f rest with
      | error e2 =>
        rw [hrest] at h
        have he2 : e2 = e := Except.error.inj h
        rcases ih e2 hrest with ⟨x, hx, hfx⟩
        refine ⟨x, List.mem_cons_of_mem _ hx, ?_⟩
        rw [hfx, he2]
      | ok bs =>
        rw [hrest] at h
        exact Except.noConfusion h

/-! ## Claim C1: round trip of reachable boards -/

/-- Claim C1, counterexample: `,` is accepted as a mark by construction (it is
a single non-whitespace character), yet the serialized string `P[,,o]=...`
splits into a phantom empty mark, so loading the freshly serialized board
fails with the mark configuration error instead of reproducing the board. -/
theorem roundTrip_comma_mark_fails :
    (GameBoard.init 2 (some [",", "o"]) >>= fun b =>
      GameBoard.getBoardString b >>= fun s => GameBoard.loadBoardString b s)
      = .error .configMark :=
  rfl

/-- Claim C1 (amended): for every board reached by a successful construction
followed by successful placements, if the effective marks are duplicate-free
and none of them is `,` or `]`, then loading the serialized board string
yields back exactly the same board state: same grid, same registries with
the same 1-based codes. -/
theorem roundTrip_reachable (b : GameBoard) (ps : List String) (h : Reached b ps)
    (hnd : ps.Nodup) (hsafe : ∀ m ∈ ps, m ≠ "," ∧ m ≠ "]") :
    ∃ s : String, GameBoard.getBoardString b = .ok s ∧
      GameBoard.loadBoardString b s = .ok b := by
  rcases reached_invariant b ps h with ⟨h1, h2, h3, h4, h5, h6, h7, h8⟩
  have hrownil : ∀ r ∈ b.board, r ≠ [] := by
    intro r hr hcon
    have hl := h7 r hr
    rw [hcon] at hl
    simp at hl
    omega
  have hrt := loadBoardString_roundtrip b ps hnd h1 h2 hsafe h3 h4 h8 hrownil
  exact ⟨_, hrt.1, hrt.2⟩

/-- Witness for `roundTrip_reachable` on a fresh default 2×2 board. -/
theorem roundTrip_reachable_witness :
    ∃ s : String, GameBoard.getBoardString sampleBoard2 = .ok s ∧
      GameBoard.loadBoardString sampleBoard2 s = .ok sampleBoard2 :=
  roundTrip_reachable sampleBoard2 ["x", "o"]
    (Reached.init 2 none sampleBoard2 (by rfl)) (by decide) (by decide)

/-! ## Claim C2 (amended): exact serialized layout -/

/-- Claim C2 (amended): for every reachable board the serialized string is
exactly the `P[...]` block of the registry keys (each distinct mark once, in
first-registration order), then the `=` character the source emits, then one
`R[...]` block per row top-to-bottom with exactly `size` cell codes per
block, `0` for an empty cell and the registered code of the mark otherwise
(`boardCharsD` spells out that exact character layout).  When the marks are
pairwise distinct this coincides with the claimed index-based layout
`boardChars`, so for distinct marks the claimed layout is wrong only in
omitting the `=`; a duplicate-mark construction additionally collapses the
`P` block and shifts the codes. -/
theorem getBoardString_layout (b : GameBoard) (ps : List String) (h : Reached b ps) :
    GameBoard.getBoardString b
      = .ok (String.mk (boardCharsD b.mark_to_num b.board)) ∧
    (∀ row ∈ b.board, (row.map (cellCodeD b.mark_to_num)).length = b.size) ∧
    (ps.Nodup → boardCharsD b.mark_to_num b.board = boardChars ps b.board) := by
  rcases reached_invariant b ps h with ⟨h1, h2, h3, h4, h5, h6, h7, h8⟩
  have hkeys : ∀ r ∈ b.board, ∀ x ∈ r, x = " " ∨ x ∈ dictKeys b.mark_to_num := by
    intro r hr x hx
    rcases h8 r hr x hx with hsp | hmem
    · exact Or.inl hsp
    · right
      rw [h3]
      exact mem_dictKeys_mkMarkToNum ps x hmem
  refine ⟨?_, ?_, ?_⟩
  · unfold GameBoard.getBoardString
    rw [getBoardString_formatD b hkeys]
    rfl
  · intro row hrow
    rw [List.length_map]
    exact h7 row hrow
  · intro hnd
    have hA := getBoardString_formatD b hkeys
    have hB := getBoardString_format b ps hnd h3 h8
    rw [hA] at hB
    exact Except.ok.inj hB

/-- Witness for `getBoardString_layout` at the duplicate-mark construction
`GameBoard(2, ['x', 'x'])`, whose serialization the theorem also covers. -/
theorem getBoardString_layout_witness :
    GameBoard.getBoardString sampleBoardDup
      = .ok (String.mk (boardCharsD sampleBoardDup.mark_to_num sampleBoardDup.board)) ∧
    (∀ row ∈ sampleBoardDup.board,
      (row.map (cellCodeD sampleBoardDup.mark_to_num)).length = sampleBoardDup.size) ∧
    (List.Nodup ["x", "x"] →
      boardCharsD sampleBoardDup.mark_to_num sampleBoardDup.board
        = boardChars ["x", "x"] sampleBoardDup.board) :=
  getBoardString_layout sampleBoardDup ["x", "x"]
    (Reached.init 2 (some ["x", "x"]) sampleBoardDup (by rfl))

/-! ## Claim C7 (amended): load behavior -/

/-- Claim C7 (amended): `load_board_string` never signals the spec's
FormatError.  It raises an IndexError when the string has no `P[...]` block,
the mark ConfigurationError when a recovered mark is invalid, the `int()`
ValueError when a non-`0` cell token is not an integer literal, and a
KeyError when an integer cell code is not registered — no other error kind
can escape it.  On success it keeps `size` untouched and installs exactly
one grid row per `R[...]` capture, with no validation of the row count or
the cells per row against `size`. -/
theorem loadBoardString_behavior (b : GameBoard) (s : String) :
    (findBlocks 'P' s.toList = [] → GameBoard.loadBoardString b s = .error .indexError) ∧
    (∀ p0 rest, findBlocks 'P' s.toList = p0 :: rest →
      ((pySplitComma p0).map String.mk).any isBadMark = true →
      GameBoard.loadBoardString b s = .error .configMark) ∧
    (∀ (d : Dict Int String) (tok : List Char), tok ≠ ['0'] →
      (∀ e, pyIntCL tok = .error e → parseCellToken d tok = .error .valueErrorInt) ∧
      (∀ n, pyIntCL tok = .ok n → dictGet? d n = none →
        parseCellToken d tok = .error .keyError)) ∧
    (∀ e, GameBoard.loadBoardString b s = .error e →
      e = .indexError ∨ e = .configMark ∨ e = .valueErrorInt ∨ e = .keyError) ∧
    (∀ b', GameBoard.loadBoardString b s = .ok b' →
      b'.size = b.size ∧ b'.board.length = (findBlocks 'R' s.toList).length) := by
  refine ⟨?_, ?_, ?_, ?_, ?_⟩
  · intro h
    unfold GameBoard.loadBoardString
    rw [h]
  · intro p0 rest hP hbad
    unfold GameBoard.loadBoardString
    rw [hP]
    simp only [Bind.bind, Except.bind]
    have hne : (pySplitComma p0).map String.mk ≠ [] := by
      intro hcon
      exact pySplitComma_ne_nil p0 (List.map_eq_nil_iff.1 hcon)
    rw [setPlayers_bad _ hne hbad]
  · intro d tok htok
    constructor
    · intro e he
      have hek : e = .valueErrorInt := pyIntCL_error_kind tok e he
      rw [hek] at he
      unfold parseCellToken
      rw [if_neg htok]
      simp only [Bind.bind, Except.bind]
      rw [he]
    · intro n hn hd
      unfold parseCellToken
      rw [if_neg htok]
      simp only [Bind.bind, Except.bind]
      rw [hn]
      simp only []
      rw [hd]
  · intro e he
    unfold GameBoard.loadBoardString at he
    cases hP : findBlocks 'P' s.toList with
    | nil =>
      rw [hP] at he
      left
      exact (Except.error.inj he).symm
    | cons p0 rest =>
      rw [hP] at he
      simp only [Bind.bind, Except.bind] at he
      cases hsp : GameBoard.setPlayers (some ((pySplitComma p0).map String.mk)) with
      | error e2 =>
        rw [hsp] at he
        have he2 : e2 = e := Except.error.inj he
        right; left
        rw [← he2]
        exact setPlayers_error _ e2 hsp
      | ok pr =>
        rw [hsp] at he
        simp only [] at he
        cases hrows : mapE (fun r => mapE (parseCellToken pr.2) (pySplitComma r))
            (findBlocks 'R' s.toList) with
        | error e2 =>
          rw [hrows] at he
          have he2 : e2 = e := Except.error.inj he
          rcases mapE_error_mem _ e2 hrows with ⟨r, _, hr⟩
          rcases mapE_error_mem _ e2 hr with ⟨tok, _, htokE⟩
          rcases parseCellToken_error_kinds pr.2 tok e2 htokE with hv | hk
          · right; right; left
            rw [← he2, hv]
          · right; right; right
            rw [← he2, hk]
        | ok rows =>
          rw [hrows] at he
          exact Except.noConfusion he
  · intro b' h
    unfold GameBoard.loadBoardString at h
    cases hP : findBlocks 'P' s.toList with
    | nil => rw [hP] at h; exact Except.noConfusion h
    | cons p0 rest =>
      rw [hP] at h
      simp only [Bind.bind, Except.bind] at h
      cases hsp : GameBoard.setPlayers (some ((pySplitComma p0).map String.mk)) with
      | error e => rw [hsp] at h; exact Except.noConfusion h
      | ok pr =>
        rw [hsp] at h
        simp only [] at h
        cases hrows : mapE (fun r => mapE (parseCellToken pr.2) (pySplitComma r))
            (findBlocks 'R' s.toList) with
        | error e => rw [hrows] at h; exact Except.noConfusion h
        | ok rows =>
          rw [hrows] at h
          have hb := (Except.ok.inj h).symm
          constructor
          · rw [hb]
          · rw [hb]
            show rows.length = _
            exact mapE_ok_length _ rows hrows

/-- Witness for `loadBoardString_behavior`: a string with no `P[...]` block
raises the IndexError; `P[,]=` recovers the invalid empty marks `"", ""` and
raises the mark ConfigurationError; the cell token `z` raises the `int()`
ValueError and the unregistered code `7` raises the KeyError. -/
theorem loadBoardString_behavior_witness :
    GameBoard.loadBoardString sampleBoard2 "Q" = .error .indexError ∧
    GameBoard.loadBoardString sampleBoard2 "P[,]=" = .error .configMark ∧
    parseCellToken sampleBoard2.num_to_mark ['z'] = .error .valueErrorInt ∧
    parseCellToken sampleBoard2.num_to_mark ['7'] = .error .keyError :=
  ⟨(loadBoardString_behavior sampleBoard2 "Q").1 (by rfl),
   (loadBoardString_behavior sampleBoard2 "P[,]=").2.1 [','] [] (by rfl) (by rfl),
   ((loadBoardString_behavior sampleBoard2 "P[,]=").2.2.1 sampleBoard2.num_to_mark
     ['z'] (by decide)).1 .valueErrorInt (by rfl),
   ((loadBoardString_behavior sampleBoard2 "Q").2.2.1 sampleBoard2.num_to_mark
     ['7'] (by decide)).2 7 (by rfl) (by rfl)⟩
